import Mathlib

/-!
Verification development for the brontes sandwich-detection inspector
(`crates/brontes-inspect/src/sandwich.rs`).

The Rust source is shallowly embedded as executable Lean definitions:

* `Address` and `B256` are modelled as `Nat` (fixed-width byte strings with
  byte-wise equality; only equality and hashing are used by the inspector).
* `U256` amounts, gas quantities and indices are modelled as `Nat`.
* malachite `Rational` is modelled as `ℚ`; the final `Rational -> f64` cast
  performed when a `BundleHeader` is materialized is abstracted away: the
  header fields of the model hold the exact rationals whose cast the source
  emits.
* Rust `HashMap`/`HashSet` state is modelled by insertion-ordered association
  lists; the inspector only relies on lookup/membership, except for the final
  candidate-set iteration order, which the model exposes explicitly as a list
  argument (see `processTreeOn`).
* A Rust `panic!` (an `unwrap` on a failed tree lookup) is modelled as the
  outer `none` of an `Option (Option _)` result; the inner `Option` is the
  source's own `Option` value (a silently skipped candidate).

Components of the tree crate (`BlockTree`, `Node`, `GasDetails`) and of the
shared inspector utilities (token-delta engine, quote oracle) are not part of
the provided source; they are modelled from the specification, as marked on
each definition.
-/

namespace Brontes

/-- Normalized swap action: `NormalizedSwap { pool, token_in, token_out,
amount_in, amount_out }`. Addresses and amounts are modelled as `Nat`. -/
structure NormalizedSwap where
  pool : Nat
  token_in : Nat
  token_out : Nat
  amount_in : Nat
  amount_out : Nat
deriving DecidableEq, Repr

/-- Modelled from the spec: the tagged action variant (`Actions`) with the
constructors the core needs: `Swap`, `Transfer`, and an "other" marker. -/
inductive Actions where
  | swap (s : NormalizedSwap)
  | transfer (source : Nat) (dest : Nat) (token : Nat) (amount : Nat)
  | other
deriving DecidableEq, Repr

/-- Accessor `is_swap()`. -/
def Actions.is_swap : Actions → Bool
  | .swap _ => true
  | _ => false

/-- Accessor `is_transfer()`. -/
def Actions.is_transfer : Actions → Bool
  | .transfer .. => true
  | _ => false

/-- Unchecked projection `force_swap()` (also `force_swap_ref()`): in the
source it panics unless the action is a `Swap`; the panic branch is modelled
as `none`. -/
def Actions.force_swap : Actions → Option NormalizedSwap
  | .swap s => some s
  | _ => none

/-- Modelled from the spec: a node of a transaction's execution tree, with
`data : Action` and children. -/
inductive Node where
  | mk (data : Actions) (children : List Node)

/-- Data field of a node. -/
def Node.data : Node → Actions
  | .mk d _ => d

mutual
/-- Modelled from the spec: `sub_actions` equals the pre-order concatenation
of descendant `data` fields. -/
def Node.subactions : Node → List Actions
  | .mk _ cs => Node.subactionsOf cs
/-- Pre-order concatenation of `data` fields of a forest, each node followed
by its descendants. -/
def Node.subactionsOf : List Node → List Actions
  | [] => []
  | n :: ns => n.data :: (n.subactions ++ Node.subactionsOf ns)
end

mutual
/-- Modelled from the spec: `collect` visits nodes in pre-order; the
predicate returns `(emit, recurse)`; `emit` selects the node's own data,
`recurse` controls descent, and a node whose `recurse` is false is still
considered for `emit`. -/
def collectNode (p : Node → Bool × Bool) : Node → List Actions
  | .mk d cs =>
      (if (p (.mk d cs)).1 then [d] else []) ++
        (if (p (.mk d cs)).2 then collectNodes p cs else [])
/-- Pre-order collection over a forest. -/
def collectNodes (p : Node → Bool × Bool) : List Node → List Actions
  | [] => []
  | n :: ns => collectNode p n ++ collectNodes p ns
end

/-- Modelled from the spec: `GasDetails { gas_used, priority_fee, base_fee,
coinbase_transfer }` in wei. -/
structure GasDetails where
  gas_used : Nat
  priority_fee : Nat
  base_fee : Nat
  coinbase_transfer : Nat
deriving DecidableEq, Repr

/-- Modelled from the spec: `gas_paid() = (base_fee + priority_fee) *
gas_used + coinbase_transfer`. -/
def GasDetails.gas_paid (g : GasDetails) : Nat :=
  (g.base_fee + g.priority_fee) * g.gas_used + g.coinbase_transfer

/-- Modelled from the spec: a per-transaction root (`TxRoot`) carrying
`tx_hash`, `position` (0-based index in the block), the head node, gas
details, and the flags `is_revert`, `eoa_address` (`root.head.address` in the
source) and `to_address` (`root.head.data.get_to_address()` in the source). -/
structure Root where
  tx_hash : Nat
  position : Nat
  is_revert : Bool
  eoa_address : Nat
  to_address : Nat
  gas_details : GasDetails
  head : Node

/-- Modelled from the spec: `BlockTree`, an ordered sequence of `TxRoot`,
immutable once built. -/
structure Tree where
  tx_roots : List Root

/-- Modelled from the spec: `get_root(h)`, root by hash; an absent hash is
the `UnknownTx` failure, surfaced as `none` (the source call sites consume it
as an `Option`). -/
def Tree.get_root (t : Tree) (h : Nat) : Option Root :=
  t.tx_roots.find? (fun r => r.tx_hash == h)

/-- Modelled from the spec: `get_gas_details(h)`; the gas details live on the
transaction's root. -/
def Tree.get_gas_details (t : Tree) (h : Nat) : Option GasDetails :=
  (t.get_root h).map (·.gas_details)

/-- Modelled from the spec: `collect(h, predicate)` returns the flat
pre-order action list of that transaction's tree; a hash with no root in the
tree contributes no actions. -/
def Tree.collect (t : Tree) (p : Node → Bool × Bool) (h : Nat) : List Actions :=
  match t.get_root h with
  | some r => collectNode p r.head
  | none => []

/-- Search predicate of `process_tree`: emit if the node's action is a
swap-or-transfer; recurse if any sub-action is a swap-or-transfer. -/
def searchFn (n : Node) : Bool × Bool :=
  (n.data.is_swap || n.data.is_transfer,
   n.subactions.any (fun a => a.is_swap || a.is_transfer))

/-- Candidate produced by the enumerator scans: `PossibleSandwich`. -/
structure PossibleSandwich where
  eoa : Nat
  possible_frontruns : List Nat
  possible_backrun : Nat
  mev_executor_contract : Nat
  victims : List (List Nat)
deriving DecidableEq, Repr

/-- MEV type marker recorded in the header; the sandwich inspector only ever
emits `Sandwich`. -/
inductive MevType where
  | sandwich
deriving DecidableEq, Repr

/-- Emitted bundle header. The two USD fields hold the exact rationals of
which the source emits the `f64` cast (`ToFloatNearest` is applied only at
materialization and is abstracted away here). -/
structure BundleHeader where
  mev_tx_index : Nat
  eoa : Nat
  mev_profit_collector : List Nat
  tx_hash : Nat
  mev_contract : Nat
  block_number : Nat
  mev_type : MevType
  finalized_profit_usd : ℚ
  finalized_bribe_usd : ℚ
deriving DecidableEq, Repr

/-- Emitted sandwich bundle body (`Sandwich`). -/
structure Sandwich where
  frontrun_tx_hash : List Nat
  frontrun_gas_details : List GasDetails
  frontrun_swaps : List (List NormalizedSwap)
  victim_swaps_tx_hashes : List (List Nat)
  victim_swaps : List (List NormalizedSwap)
  victim_swaps_gas_details : List GasDetails
  backrun_tx_hash : Nat
  backrun_swaps : List NormalizedSwap
  backrun_gas_details : GasDetails
deriving DecidableEq, Repr

/-- Association-list lookup, the model of `HashMap` lookup (first entry with
the given key). -/
def alookup {α : Type} : List (Nat × α) → Nat → Option α
  | [], _ => none
  | (k', v) :: rest, k => if k' = k then some v else alookup rest k

/-- Association-list insert, the model of `HashMap::insert`: replaces the
entry in place if the key is present, otherwise appends. -/
def ainsert {α : Type} : List (Nat × α) → Nat → α → List (Nat × α)
  | [], k, v => [(k, v)]
  | (k', v') :: rest, k, v =>
      if k' = k then (k, v) :: rest else (k', v') :: ainsert rest k v

/-- Association-list removal, the model of `HashMap::remove`. -/
def aremove {α : Type} (l : List (Nat × α)) (k : Nat) : List (Nat × α) :=
  l.filter (fun kv => kv.1 ≠ k)

/-- Pair-keyed association lookup for the quote store. -/
def plookup {α : Type} : List ((Nat × Nat) × α) → (Nat × Nat) → Option α
  | [], _ => none
  | (k', v) :: rest, k => if k' = k then some v else plookup rest k

/-- Modelled from the spec: `MetadataCombined` with `block_num`,
`eth_price_usd`, the DEX quote store (one partial `Pair -> Rational` map per
tx position) and `get_gas_price_usd`, kept abstract as a function field. -/
structure MetadataCombined where
  block_num : Nat
  eth_price_usd : ℚ
  dex_quotes : List (List ((Nat × Nat) × ℚ))
  gas_price_fn : Nat → ℚ

/-- Modelled from the spec: `get_gas_price_usd(wei)`. -/
def MetadataCombined.get_gas_price_usd (m : MetadataCombined) (wei : Nat) : ℚ :=
  m.gas_price_fn wei

/-- First hit while walking quote maps from the latest position backwards. -/
def firstPrice : List (List ((Nat × Nat) × ℚ)) → (Nat × Nat) → Option ℚ
  | [], _ => none
  | q :: qs, p =>
      match plookup q p with
      | some x => some x
      | none => firstPrice qs p

/-- Modelled from the spec: `price_at_or_before(pair, idx)` returns the
latest available price at position at most `idx`; `none` when no quote
exists at or before `idx`. -/
def priceAtOrBefore (qs : List (List ((Nat × Nat) × ℚ))) (pair : Nat × Nat)
    (idx : Nat) : Option ℚ :=
  firstPrice ((qs.take (idx + 1)).reverse) pair

/-- Add a signed amount to `deltas[addr][token]`. -/
def addDelta (deltas : List (Nat × List (Nat × ℚ))) (addr token : Nat)
    (amt : ℚ) : List (Nat × List (Nat × ℚ)) :=
  match alookup deltas addr with
  | none => ainsert deltas addr [(token, amt)]
  | some toks =>
      match alookup toks token with
      | none => ainsert deltas addr (ainsert toks token amt)
      | some v => ainsert deltas addr (ainsert toks token (v + amt))

/-- Modelled from the spec: the token-delta engine `calculate_token_deltas`.
A swap credits `amount_in` of `token_in` to the pool and debits `amount_out`
of `token_out` from it; a transfer debits the sender and credits the
receiver. Aggregation is over all action groups. -/
def calculate_token_deltas (txs : List (List Actions)) :
    List (Nat × List (Nat × ℚ)) :=
  txs.foldl
    (fun acc acts =>
      acts.foldl
        (fun acc a =>
          match a with
          | .swap s =>
              addDelta (addDelta acc s.pool s.token_in (s.amount_in : ℚ))
                s.pool s.token_out (-(s.amount_out : ℚ))
          | .transfer src dst token amount =>
              addDelta (addDelta acc src token (-(amount : ℚ))) dst token
                (amount : ℚ)
          | .other => acc)
        acc)
    []

/-- USD value of one token delta at index `idx`: the quote token counts at
face value, any other token needs a quote at or before `idx`. -/
def tokenUsd (m : MetadataCombined) (quote idx token : Nat) (amt : ℚ) :
    Option ℚ :=
  if token = quote then some amt
  else (priceAtOrBefore m.dex_quotes (token, quote) idx).map (fun p => amt * p)

/-- Modelled from the spec: `usd_delta_by_address(idx, deltas, metadata,
pessimistic)`; fails (`none`) when a required token has neither a quote nor
is the quote token; `pessimistic` negates addresses whose net USD is
negative (unused by the sandwich inspector, which passes `false`). -/
def usd_delta_by_address (quote idx : Nat)
    (deltas : List (Nat × List (Nat × ℚ))) (m : MetadataCombined)
    (pessimistic : Bool) : Option (List (Nat × ℚ)) :=
  deltas.mapM
    (fun av =>
      ((av.2.mapM (fun ta => tokenUsd m quote idx ta.1 ta.2)).map
        (fun l =>
          let s := l.sum
          (av.1, if pessimistic && decide (s < 0) then -s else s))))

/-- Modelled from the spec: `profit_collectors`, the addresses with strictly
positive net USD delta. -/
def profit_collectors (usdDeltas : List (Nat × ℚ)) : List Nat :=
  (usdDeltas.filter (fun av => decide (0 < av.2))).map (·.1)

/-- Swap extraction `.filter(is_swap).map(force_swap)` used by
`calculate_sandwich` and `has_pool_overlap`; the `none` (panic) branch of
`force_swap` is dropped by `filterMap`, which is behaviour-preserving because
every action surviving the `is_swap` filter projects to `some` (the safety
claim proved below). -/
def extractSwaps (acts : List Actions) : List NormalizedSwap :=
  (acts.filter Actions.is_swap).filterMap Actions.force_swap

/-- Pool-overlap test `has_pool_overlap`: `pools` is the set of frontrun swap
pools, `has_victim` the victim swap pools that lie in `pools`; accept iff
some backrun swap's pool is in both. `HashSet` is modelled by a list used
only through `contains`. -/
def has_pool_overlap (front_run_swaps : List (List NormalizedSwap))
    (back_run_swaps : List NormalizedSwap)
    (victim_actions : List (List (List Actions))) : Bool :=
  let pools := front_run_swaps.flatten.map (·.pool)
  let has_victim :=
    ((extractSwaps victim_actions.flatten.flatten).map (·.pool)).filter
      (fun p => pools.contains p)
  back_run_swaps.any (fun s => pools.contains s.pool && has_victim.contains s.pool)

/-- Body of `calculate_sandwich`, made structurally recursive on an explicit
depth allowance. The source recursion removes one frontrun per recursive call
and only recurses while `possible_front_runs.len() > 1`, so a fuel of
`possible_front_runs.length + 1` (supplied by `calculate_sandwich` below) is
never exhausted and the `0` branch is unreachable from the wrapper. -/
def calcSandwichFuel : Nat → Nat → MetadataCombined → Nat → Nat → Nat →
    List Nat → Nat → List GasDetails → GasDetails → List (List Actions) →
    List (List Nat) → List (List (List Actions)) → List (List GasDetails) →
    Option (BundleHeader × Sandwich)
  | 0, _, _, _, _, _, _, _, _, _, _, _, _, _ => none
  | fuel + 1, quote, metadata, idx, eoa, mev_executor_contract,
      possible_front_runs, possible_back_run, front_run_gas, back_run_gas,
      searcher_actions, victim_txes, victim_actions, victim_gas =>
    let all_actions := searcher_actions
    match searcher_actions.getLast? with
    | none => none
    | some last_actions =>
      let searcher_rest := searcher_actions.dropLast
      let back_run_swaps := extractSwaps last_actions
      let front_run_swaps := searcher_rest.map extractSwaps
      if has_pool_overlap front_run_swaps back_run_swaps victim_actions then
        let victim_swaps := victim_actions.flatten.map extractSwaps
        let deltas := calculate_token_deltas all_actions
        match usd_delta_by_address quote idx deltas metadata false with
        | none => none
        | some addr_usd_deltas =>
          let mev_profit_collector := profit_collectors addr_usd_deltas
          let rev_usd := (addr_usd_deltas.map (·.2)).foldl (· + ·) 0
          let gas_used_wei :=
            ((front_run_gas ++ [back_run_gas]).map GasDetails.gas_paid).sum
          let gas_used := metadata.get_gas_price_usd gas_used_wei
          some
            ({ mev_tx_index := idx
               eoa := eoa
               mev_profit_collector := mev_profit_collector
               tx_hash := possible_front_runs.headD 0
               mev_contract := mev_executor_contract
               block_number := metadata.block_num
               mev_type := .sandwich
               finalized_profit_usd := rev_usd - gas_used
               finalized_bribe_usd := gas_used },
             { frontrun_tx_hash := possible_front_runs
               frontrun_gas_details := front_run_gas
               frontrun_swaps := front_run_swaps
               victim_swaps_tx_hashes := victim_txes
               victim_swaps := victim_swaps
               victim_swaps_gas_details := victim_gas.flatten
               backrun_tx_hash := possible_back_run
               backrun_swaps := back_run_swaps
               backrun_gas_details := back_run_gas })
      else
        if possible_front_runs.length > 1 then
          match victim_gas.getLast?, victim_actions.getLast?,
              victim_txes.getLast?, possible_front_runs.getLast?,
              front_run_gas.getLast? with
          | some _, some _, some _, some back_run_tx, some new_back_gas =>
              calcSandwichFuel fuel quote metadata idx eoa mev_executor_contract
                possible_front_runs.dropLast back_run_tx
                front_run_gas.dropLast new_back_gas searcher_rest
                victim_txes.dropLast victim_actions.dropLast
                victim_gas.dropLast
          | _, _, _, _, _ => none
        else none

/-- `calculate_sandwich`: the source recursion with its natural termination
measure. `tx_hash := possible_front_runs[0]` of the source is rendered as
`headD 0`; the index panics only on an empty frontrun list, which never
reaches the emission point from the inspector pipeline (frontrun lists of
enumerated candidates are non-empty and the peel-off keeps at least one
element). -/
def calculate_sandwich (quote : Nat) (metadata : MetadataCombined) (idx eoa
    mev_executor_contract : Nat) (possible_front_runs : List Nat)
    (possible_back_run : Nat) (front_run_gas : List GasDetails)
    (back_run_gas : GasDetails) (searcher_actions : List (List Actions))
    (victim_txes : List (List Nat))
    (victim_actions : List (List (List Actions)))
    (victim_gas : List (List GasDetails)) : Option (BundleHeader × Sandwich) :=
  calcSandwichFuel (possible_front_runs.length + 1) quote metadata idx eoa
    mev_executor_contract possible_front_runs possible_back_run front_run_gas
    back_run_gas searcher_actions victim_txes victim_actions victim_gas

/-- Lazy `.map(|v| tree.get_root(*v).unwrap()).any(reverted-or-own-contract)`
over the flattened victim list: walks the victims in order; a missing root is
the panic (`none`); otherwise reports whether some victim is reverted or
calls the candidate's executor contract. -/
def victimRevertScan (t : Tree) (mev_executor_contract : Nat) :
    List Nat → Option Bool
  | [] => some false
  | v :: vs =>
      match t.get_root v with
      | none => none
      | some r =>
          if r.is_revert || mev_executor_contract == r.to_address then
            some true
          else victimRevertScan t mev_executor_contract vs

/-- Per-candidate closure of `process_tree` (the body of the `filter_map`).
The outer `Option` is panic propagation: `none` models an `unwrap` failure on
a `get_root` lookup; `some none` is the source closure returning `None` (the
candidate is silently skipped); `some (some bundle)` is an emitted bundle.
Missing `get_gas_details` results are dropped by the source's `flat_map`
(frontrun and victim gas) or turned into a silent skip by `?` (backrun
gas). -/
def processCandidate (quote : Nat) (t : Tree) (metadata : MetadataCombined)
    (c : PossibleSandwich) : Option (Option (BundleHeader × Sandwich)) :=
  let victim_gas :=
    c.victims.map (fun vs => vs.filterMap (fun v => t.get_gas_details v))
  let victim_actions :=
    c.victims.map (fun vs => vs.map (fun v => t.collect searchFn v))
  if victim_actions.any (fun inner => inner.any (fun s => s.isEmpty)) then
    some none
  else
    match victimRevertScan t c.mev_executor_contract c.victims.flatten with
    | none => none
    | some true => some none
    | some false =>
      match t.get_root c.possible_backrun with
      | none => none
      | some back_root =>
        let tx_idx := back_root.position
        let front_run_gas :=
          c.possible_frontruns.filterMap (fun pf => t.get_gas_details pf)
        match t.get_gas_details c.possible_backrun with
        | none => some none
        | some back_run_gas =>
          let searcher_actions :=
            ((c.possible_frontruns ++ [c.possible_backrun]).map
              (fun tx => t.collect searchFn tx)).filter
              (fun f => !f.isEmpty)
          some
            (calculate_sandwich quote metadata tx_idx c.eoa
              c.mev_executor_contract c.possible_frontruns c.possible_backrun
              front_run_gas back_run_gas searcher_actions c.victims
              victim_actions victim_gas)

/-- Candidate-by-candidate processing of `process_tree` in an explicitly
given iteration order (the source iterates a freshly collected `HashSet`,
whose order the Rust standard library does not fix across runs); panic in
any candidate aborts the whole run (`none`), otherwise the `filter_map`
keeps the emitted bundles in iteration order. -/
def processTreeOn (quote : Nat) (t : Tree) (metadata : MetadataCombined) :
    List PossibleSandwich → Option (List (BundleHeader × Sandwich))
  | [] => some []
  | c :: cs =>
      match processCandidate quote t metadata c with
      | none => none
      | some none => processTreeOn quote t metadata cs
      | some (some b) => (processTreeOn quote t metadata cs).map (b :: ·)

/-- Scratch state of `get_possible_sandwich_duplicate_senders`: the three
`HashMap`s, modelled as insertion-ordered association lists. -/
structure SenderScanState where
  duplicate_senders : List (Nat × Nat)
  possible_victims : List (Nat × List Nat)
  possible_sandwiches : List (Nat × PossibleSandwich)
deriving Repr

/-- Post-root loop of both scans: append the current tx hash to every
still-open victim list whose key is a different transaction. -/
def appendVictim (pv : List (Nat × List Nat)) (h : Nat) :
    List (Nat × List Nat) :=
  pv.map (fun kv => if kv.1 = h then kv else (kv.1, kv.2 ++ [h]))

/-- Sandwich upsert of the duplicate-sender scan: create the candidate on
first duplicate, otherwise push the previous hash as one more frontrun,
advance the backrun to the current hash, and push the consumed victim
list. -/
def upsertSandwichSenders (sands : List (Nat × PossibleSandwich)) (r : Root)
    (prev : Nat) (frontrun_victims : List Nat) :
    List (Nat × PossibleSandwich) :=
  match alookup sands r.eoa_address with
  | none =>
      ainsert sands r.eoa_address
        { eoa := r.eoa_address
          possible_frontruns := [prev]
          possible_backrun := r.tx_hash
          mev_executor_contract := r.to_address
          victims := [frontrun_victims] }
  | some sw =>
      ainsert sands r.eoa_address
        { sw with
          possible_frontruns := sw.possible_frontruns ++ [prev]
          possible_backrun := r.tx_hash
          victims := sw.victims ++ [frontrun_victims] }

/-- Per-root step of `get_possible_sandwich_duplicate_senders`: skip reverted
roots; on a vacant sender record the hash and open a victim list; on an
occupied sender consume the previous hash's victim list into the candidate,
advance the sender's last hash, and open a fresh victim list; finally append
the current hash to every other open victim list. -/
def stepSenders (st : SenderScanState) (r : Root) : SenderScanState :=
  if r.is_revert then st
  else
    let st1 :=
      match alookup st.duplicate_senders r.eoa_address with
      | none =>
          { st with
            duplicate_senders :=
              ainsert st.duplicate_senders r.eoa_address r.tx_hash
            possible_victims := ainsert st.possible_victims r.tx_hash [] }
      | some prev_tx_hash =>
          let st2 :=
            match alookup st.possible_victims prev_tx_hash with
            | none => st
            | some frontrun_victims =>
                { st with
                  possible_victims := aremove st.possible_victims prev_tx_hash
                  possible_sandwiches :=
                    upsertSandwichSenders st.possible_sandwiches r
                      prev_tx_hash frontrun_victims }
          { st2 with
            duplicate_senders :=
              ainsert st2.duplicate_senders r.eoa_address r.tx_hash
            possible_victims := ainsert st2.possible_victims r.tx_hash [] }
    { st1 with possible_victims := appendVictim st1.possible_victims r.tx_hash }

/-- `get_possible_sandwich_duplicate_senders`: fold the per-root step over
the roots in position order and return the in-progress candidates (the
source collects `possible_sandwiches.values()`). -/
def get_possible_sandwich_duplicate_senders (t : Tree) :
    List PossibleSandwich :=
  ((t.tx_roots.foldl stepSenders
      { duplicate_senders := []
        possible_victims := []
        possible_sandwiches := [] }).possible_sandwiches).map (·.2)

/-- Scratch state of `get_possible_sandwich_duplicate_contracts`: the
contract map stores the previous tx hash together with the frontrun signer
recorded at first sight of the contract. -/
structure ContractScanState where
  duplicate_mev_contracts : List (Nat × (Nat × Nat))
  possible_victims : List (Nat × List Nat)
  possible_sandwiches : List (Nat × PossibleSandwich)
deriving Repr

/-- Sandwich upsert of the duplicate-contract scan: as for senders, but keyed
by the callee contract and carrying the stored frontrun signer as `eoa`. -/
def upsertSandwichContracts (sands : List (Nat × PossibleSandwich)) (r : Root)
    (prev : Nat) (frontrun_eoa : Nat) (frontrun_victims : List Nat) :
    List (Nat × PossibleSandwich) :=
  match alookup sands r.to_address with
  | none =>
      ainsert sands r.to_address
        { eoa := frontrun_eoa
          possible_frontruns := [prev]
          possible_backrun := r.tx_hash
          mev_executor_contract := r.to_address
          victims := [frontrun_victims] }
  | some sw =>
      ainsert sands r.to_address
        { sw with
          possible_frontruns := sw.possible_frontruns ++ [prev]
          possible_backrun := r.tx_hash
          victims := sw.victims ++ [frontrun_victims] }

/-- Per-root step of `get_possible_sandwich_duplicate_contracts`; identical
in shape to the sender scan, keyed by `to_address`, and the `eoa` stored with
the first transaction of the contract is kept (only the hash component of the
map value is advanced). -/
def stepContracts (st : ContractScanState) (r : Root) : ContractScanState :=
  if r.is_revert then st
  else
    let st1 :=
      match alookup st.duplicate_mev_contracts r.to_address with
      | none =>
          { st with
            duplicate_mev_contracts :=
              ainsert st.duplicate_mev_contracts r.to_address
                (r.tx_hash, r.eoa_address)
            possible_victims := ainsert st.possible_victims r.tx_hash [] }
      | some pe =>
          let st2 :=
            match alookup st.possible_victims pe.1 with
            | none => st
            | some frontrun_victims =>
                { st with
                  possible_victims := aremove st.possible_victims pe.1
                  possible_sandwiches :=
                    upsertSandwichContracts st.possible_sandwiches r pe.1
                      pe.2 frontrun_victims }
          { st2 with
            duplicate_mev_contracts :=
              ainsert st2.duplicate_mev_contracts r.to_address
                (r.tx_hash, pe.2)
            possible_victims := ainsert st2.possible_victims r.tx_hash [] }
    { st1 with possible_victims := appendVictim st1.possible_victims r.tx_hash }

/-- `get_possible_sandwich_duplicate_contracts`. -/
def get_possible_sandwich_duplicate_contracts (t : Tree) :
    List PossibleSandwich :=
  ((t.tx_roots.foldl stepContracts
      { duplicate_mev_contracts := []
        possible_victims := []
        possible_sandwiches := [] }).possible_sandwiches).map (·.2)

/-- First-occurrence deduplication, the content of the `HashSet` collected by
`get_possible_sandwich` (set semantics; the iteration order of the Rust
`HashSet` is not part of this canonical list, see `processTreeOn`). -/
def dedupList : List PossibleSandwich → List PossibleSandwich
  | [] => []
  | x :: xs => if x ∈ xs then dedupList xs else x :: dedupList xs

/-- `get_possible_sandwich`: with fewer than three roots, no candidates;
otherwise the union of the two scans with set-deduplication. The two scans
read only the immutable tree, so the source's fork-join parallelism is pure
and is modelled by running them in sequence. `dedupList` keeps the last
occurrence of each duplicate; any list with the same members models a valid
`HashSet` content. -/
def get_possible_sandwich (t : Tree) : List PossibleSandwich :=
  if t.tx_roots.length < 3 then []
  else
    dedupList
      (get_possible_sandwich_duplicate_senders t ++
        get_possible_sandwich_duplicate_contracts t)

/-- `process_tree` with the canonical candidate order of
`get_possible_sandwich`; the source's actual order is whatever the `HashSet`
iteration yields. -/
def process_tree (quote : Nat) (t : Tree) (metadata : MetadataCombined) :
    Option (List (BundleHeader × Sandwich)) :=
  processTreeOn quote t metadata (get_possible_sandwich t)

/-- Position of a hash in a tree, `0` for an absent hash. -/
def Tree.posOf (t : Tree) (h : Nat) : Nat :=
  match t.get_root h with
  | some r => r.position
  | none => 0

/-- Shared gas details of the concrete blocks below. -/
def gD : GasDetails := ⟨1, 1, 1, 0⟩

/-- Single-swap execution tree. -/
def swapNode (pool tin tout ain aout : Nat) : Node :=
  .mk (.swap ⟨pool, tin, tout, ain, aout⟩) []

/-- Concrete block with two disjoint single-frontrun sandwiches (sender 1 on
pool 31 at positions 0-2, sender 2 on pool 32 at positions 3-5). -/
def T1 : Tree := ⟨[
  ⟨100, 0, false, 1, 21, gD, swapNode 31 41 42 100 200⟩,
  ⟨101, 1, false, 3, 23, gD, swapNode 31 41 42 10 20⟩,
  ⟨102, 2, false, 1, 21, gD, swapNode 31 42 41 200 100⟩,
  ⟨103, 3, false, 2, 22, gD, swapNode 32 41 42 50 60⟩,
  ⟨104, 4, false, 4, 24, gD, swapNode 32 41 42 5 6⟩,
  ⟨105, 5, false, 2, 22, gD, swapNode 32 42 41 60 50⟩]⟩

/-- Concrete metadata: quotes for tokens 41 and 42 against quote token 40 at
position 0; gas priced at face value. -/
def M0 : MetadataCombined :=
  { block_num := 7
    eth_price_usd := 1
    dex_quotes := [[((41, 40), 1), ((42, 40), 1)]]
    gas_price_fn := fun w => (w : ℚ) }

/-- Concrete block in which sender 1's third transaction (position 4, pool
32) shares no pool with its earlier legs, forcing one peel-off step; the
peeled candidate (positions 0-2 on pool 31) is emitted. -/
def T2 : Tree := ⟨[
  ⟨200, 0, false, 1, 21, gD, swapNode 31 41 42 100 200⟩,
  ⟨201, 1, false, 3, 23, gD, swapNode 31 41 42 10 20⟩,
  ⟨202, 2, false, 1, 21, gD, swapNode 31 42 41 200 100⟩,
  ⟨203, 3, false, 4, 24, gD, swapNode 33 41 42 7 8⟩,
  ⟨204, 4, false, 1, 21, gD, swapNode 32 41 42 9 10⟩]⟩

/-- Concrete block with a two-leg Big Mac sandwich: sender 1 at positions
0, 2 and 4, victims at positions 1 and 3, all on pool 31. -/
def T4 : Tree := ⟨[
  ⟨300, 0, false, 1, 21, gD, swapNode 31 41 42 100 200⟩,
  ⟨301, 1, false, 3, 23, gD, swapNode 31 41 42 10 20⟩,
  ⟨302, 2, false, 1, 21, gD, swapNode 31 41 42 30 40⟩,
  ⟨303, 3, false, 4, 24, gD, swapNode 31 41 42 11 21⟩,
  ⟨304, 4, false, 1, 21, gD, swapNode 31 42 41 260 140⟩]⟩

/-- Candidate over `T1` that names a frontrun hash (`999`) absent from the
tree, exercising the missing-lookup handling of the per-candidate closure. -/
def ghostCand : PossibleSandwich :=
  { eoa := 1, possible_frontruns := [100, 999], possible_backrun := 102,
    mev_executor_contract := 21, victims := [[101], []] }

/-- Concrete block whose middle transaction (position 1) is reverted. -/
def T5 : Tree := ⟨[
  ⟨400, 0, false, 1, 21, gD, swapNode 31 41 42 100 200⟩,
  ⟨401, 1, true, 5, 23, gD, swapNode 31 41 42 10 20⟩,
  ⟨402, 2, false, 1, 21, gD, swapNode 31 42 41 200 100⟩]⟩

/-- Candidate over `T5` whose only victim is the reverted transaction. -/
def revCand : PossibleSandwich :=
  { eoa := 1, possible_frontruns := [400], possible_backrun := 402,
    mev_executor_contract := 21, victims := [[401]] }

/-- Membership in the extracted swap list is membership of the corresponding
`Swap` action. -/
theorem mem_extractSwaps {s : NormalizedSwap} {acts : List Actions} :
    s ∈ extractSwaps acts ↔ Actions.swap s ∈ acts := by
  simp only [extractSwaps, List.mem_filterMap, List.mem_filter]
  constructor
  · rintro ⟨a, ⟨ha, hsw⟩, hfs⟩
    cases a with
    | swap s' =>
        simp only [Actions.force_swap, Option.some.injEq] at hfs
        exact hfs ▸ ha
    | transfer _ _ _ _ => simp [Actions.force_swap] at hfs
    | other => simp [Actions.force_swap] at hfs
  · intro h
    exact ⟨Actions.swap s, ⟨h, rfl⟩, rfl⟩

/-- Length of `filterMap force_swap` over a list of swap-only actions. -/
theorem length_filterMap_force_swap (l : List Actions)
    (h : ∀ a ∈ l, a.is_swap = true) :
    (l.filterMap Actions.force_swap).length = l.length := by
  induction l with
  | nil => rfl
  | cons a l ih =>
      have ha : a.is_swap = true := h a (List.mem_cons_self a l)
      have ih' := ih (fun b hb => h b (List.mem_cons_of_mem a hb))
      cases a with
      | swap s =>
          simp only [List.filterMap_cons, Actions.force_swap, List.length_cons]
          exact congrArg (· + 1) ih'
      | transfer _ _ _ _ => simp [Actions.is_swap] at ha
      | other => simp [Actions.is_swap] at ha

/-- C10: in `calculate_sandwich` and `has_pool_overlap` the unchecked
projection `force_swap` is only applied to actions that already passed the
`is_swap` filter, so its panic branch is unreachable there: every filtered
action projects to `some`, and the swap-extraction pipeline drops nothing. -/
theorem force_swap_guarded (acts : List Actions) :
    (∀ a ∈ acts.filter Actions.is_swap, (Actions.force_swap a).isSome = true) ∧
      (extractSwaps acts).length = (acts.filter Actions.is_swap).length := by
  constructor
  · intro a ha
    have hsw : a.is_swap = true := (List.mem_filter.mp ha).2
    cases a with
    | swap s => simp [Actions.force_swap]
    | transfer _ _ _ _ => simp [Actions.is_swap] at hsw
    | other => simp [Actions.is_swap] at hsw
  · exact length_filterMap_force_swap (acts.filter Actions.is_swap)
      (fun a ha => (List.mem_filter.mp ha).2)

/-- Witness for C10 at a concrete swap action. -/
theorem force_swap_guarded_witness :
    (Actions.force_swap
      (Actions.swap ⟨31, 41, 42, 100, 200⟩)).isSome = true :=
  (force_swap_guarded [Actions.swap ⟨31, 41, 42, 100, 200⟩]).1
    (Actions.swap ⟨31, 41, 42, 100, 200⟩) (by decide)

/-- C5: the pool-overlap test accepts exactly when one pool occurs in a
frontrun swap, in a victim swap, and in a backrun swap. -/
theorem has_pool_overlap_iff (F : List (List NormalizedSwap))
    (B : List NormalizedSwap) (V : List (List (List Actions))) :
    has_pool_overlap F B V = true ↔
      ∃ p, (∃ f ∈ F.flatten, f.pool = p) ∧
        (∃ s : NormalizedSwap,
          Actions.swap s ∈ V.flatten.flatten ∧ s.pool = p) ∧
        (∃ b ∈ B, b.pool = p) := by
  simp only [has_pool_overlap, List.any_eq_true, Bool.and_eq_true]
  constructor
  · rintro ⟨b, hb, hf, hv⟩
    simp only [List.contains_iff_exists_mem_beq, beq_iff_eq] at hf
    obtain ⟨pf, hpf, hpfe⟩ := hf
    simp only [List.contains_iff_exists_mem_beq, beq_iff_eq] at hv
    obtain ⟨pv, hpv, hpve⟩ := hv
    obtain ⟨f, hfmem, hfpool⟩ := List.mem_map.mp hpf
    refine ⟨b.pool, ⟨f, hfmem, hpfe ▸ hfpool⟩, ?_, ⟨b, hb, rfl⟩⟩
    have hpv' := List.mem_filter.mp hpv
    obtain ⟨s, hsmem, hspool⟩ := List.mem_map.mp hpv'.1
    exact ⟨s, mem_extractSwaps.mp hsmem, hpve ▸ hspool⟩
  · rintro ⟨p, ⟨f, hf, hfp⟩, ⟨s, hs, hsp⟩, ⟨b, hb, hbp⟩⟩
    refine ⟨b, hb, ?_, ?_⟩
    · simp only [List.contains_iff_exists_mem_beq, beq_iff_eq]
      exact ⟨p, List.mem_map.mpr ⟨f, hf, hfp⟩, hbp⟩
    · simp only [List.contains_iff_exists_mem_beq, beq_iff_eq]
      refine ⟨p, List.mem_filter.mpr ⟨?_, ?_⟩, hbp⟩
      · exact List.mem_map.mpr ⟨s, mem_extractSwaps.mpr hs, hsp⟩
      · simp only [List.contains_iff_exists_mem_beq, beq_iff_eq]
        exact ⟨p, List.mem_map.mpr ⟨f, hf, hfp⟩, rfl⟩

/-- Witness for C5 on a concrete accepted overlap. -/
theorem has_pool_overlap_iff_witness :
    ∃ p, (∃ f ∈ ([[⟨31, 41, 42, 1, 2⟩]] :
        List (List NormalizedSwap)).flatten, f.pool = p) ∧
      (∃ s : NormalizedSwap,
        Actions.swap s ∈
          ([[[Actions.swap ⟨31, 41, 42, 3, 4⟩]]] :
            List (List (List Actions))).flatten.flatten ∧ s.pool = p) ∧
      (∃ b ∈ ([⟨31, 42, 41, 5, 6⟩] : List NormalizedSwap), b.pool = p) :=
  (has_pool_overlap_iff [[⟨31, 41, 42, 1, 2⟩]] [⟨31, 42, 41, 5, 6⟩]
    [[[Actions.swap ⟨31, 41, 42, 3, 4⟩]]]).mp (by decide)

/-- Any depth allowance of at least `possible_front_runs.length + 1` yields
the same result from the `calculate_sandwich` recursion: the peel-off
recursion consumes one frontrun per call and never needs more frames. -/
theorem calcFuel_irrel :
    ∀ (n m : Nat) (quote : Nat) (md : MetadataCombined)
      (idx eoa con : Nat) (frs : List Nat) (br : Nat)
      (frg : List GasDetails) (brg : GasDetails) (sa : List (List Actions))
      (vt : List (List Nat)) (va : List (List (List Actions)))
      (vg : List (List GasDetails)),
      frs.length + 1 ≤ n → frs.length + 1 ≤ m →
      calcSandwichFuel n quote md idx eoa con frs br frg brg sa vt va vg =
        calcSandwichFuel m quote md idx eoa con frs br frg brg sa vt va vg := by
  intro n
  induction n with
  | zero =>
      intro m quote md idx eoa con frs br frg brg sa vt va vg h1 _
      exact absurd h1 (by omega)
  | succ n ih =>
      intro m quote md idx eoa con frs br frg brg sa vt va vg h1 h2
      cases m with
      | zero => exact absurd h2 (by omega)
      | succ m' =>
          simp only [calcSandwichFuel]
          cases hlast : sa.getLast? with
          | none => rfl
          | some last =>
              by_cases hov :
                has_pool_overlap (List.map extractSwaps sa.dropLast)
                  (extractSwaps last) va = true
              · simp only [if_pos hov]
              · simp only [if_neg hov]
                by_cases hlen : frs.length > 1
                · simp only [if_pos hlen]
                  cases vg.getLast? with
                  | none => rfl
                  | some _ =>
                    cases va.getLast? with
                    | none => rfl
                    | some _ =>
                      cases vt.getLast? with
                      | none => rfl
                      | some _ =>
                        cases hfr : frs.getLast? with
                        | none => rfl
                        | some back_run_tx =>
                          cases frg.getLast? with
                          | none => rfl
                          | some _ =>
                              have hdl : frs.dropLast.length + 1 =
                                  frs.length := by
                                rw [List.length_dropLast]
                                omega
                              exact ih m' quote md idx eoa con frs.dropLast
                                back_run_tx frg.dropLast _ sa.dropLast
                                vt.dropLast va.dropLast vg.dropLast
                                (by omega) (by omega)
                · simp only [if_neg hlen]

/-- C6: the peel-off retry of `calculate_sandwich` pops the last frontrun
only while more than one frontrun remains, so the recursion terminates
within a depth allowance of `possible_front_runs.length + 1` frames (any
larger allowance computes the same result), and with exactly one frontrun
and a failed pool-overlap test the candidate is rejected outright. -/
theorem calculate_sandwich_depth_bound :
    (∀ (fuel1 fuel2 : Nat) (quote : Nat) (md : MetadataCombined)
      (idx eoa con : Nat) (frs : List Nat) (br : Nat)
      (frg : List GasDetails) (brg : GasDetails) (sa : List (List Actions))
      (vt : List (List Nat)) (va : List (List (List Actions)))
      (vg : List (List GasDetails)),
      frs.length + 1 ≤ fuel1 → frs.length + 1 ≤ fuel2 →
      calcSandwichFuel fuel1 quote md idx eoa con frs br frg brg sa vt va vg =
        calcSandwichFuel fuel2 quote md idx eoa con frs br frg brg sa vt va
          vg) ∧
    (∀ (quote : Nat) (md : MetadataCombined) (idx eoa con f br : Nat)
      (frg : List GasDetails) (brg : GasDetails) (sa : List (List Actions))
      (vt : List (List Nat)) (va : List (List (List Actions)))
      (vg : List (List GasDetails)) (last : List Actions),
      sa.getLast? = some last →
      has_pool_overlap (sa.dropLast.map extractSwaps) (extractSwaps last)
        va = false →
      calculate_sandwich quote md idx eoa con [f] br frg brg sa vt va vg =
        none) := by
  constructor
  · exact calcFuel_irrel
  · intro quote md idx eoa con f br frg brg sa vt va vg last hlast hov
    rw [List.map_dropLast] at hov
    simp [calculate_sandwich, calcSandwichFuel, hlast, hov]

/-- Witness for C6: a two-frame and a three-frame allowance agree on a
single-frontrun input, and a concrete single-frontrun candidate with no
overlap is rejected. -/
theorem calculate_sandwich_depth_bound_witness :
    (calcSandwichFuel 2 40 M0 0 9 21 [5] 6 [] gD [[Actions.other]] [] [] [] =
      calcSandwichFuel 3 40 M0 0 9 21 [5] 6 [] gD [[Actions.other]] [] []
        []) ∧
    calculate_sandwich 40 M0 0 9 21 [5] 6 [] gD [[Actions.other]] [] [] [] =
      none :=
  ⟨calculate_sandwich_depth_bound.1 2 3 40 M0 0 9 21 [5] 6 [] gD
      [[Actions.other]] [] [] [] (by decide) (by decide),
    calculate_sandwich_depth_bound.2 40 M0 0 9 21 5 6 [] gD
      [[Actions.other]] [] [] [] [Actions.other] (by decide) (by decide)⟩

/-- Completion of the lazy victim scan: when every victim root resolves and
some victim is reverted or calls the executor contract, the scan reports
`true`. -/
theorem victimRevertScan_true (t : Tree) (con : Nat) :
    ∀ l : List Nat, (∀ v ∈ l, ∃ r, t.get_root v = some r) →
      (∃ v ∈ l, ∃ r, t.get_root v = some r ∧
        (r.is_revert = true ∨ r.to_address = con)) →
      victimRevertScan t con l = some true := by
  intro l
  induction l with
  | nil =>
      rintro _ ⟨v, hv, _⟩
      exact absurd hv (List.not_mem_nil v)
  | cons v vs ih =>
      rintro hall ⟨v', hv', r', hr', hpred⟩
      obtain ⟨r, hr⟩ := hall v (List.mem_cons_self v vs)
      rw [victimRevertScan, hr]
      by_cases hcond : (r.is_revert || con == r.to_address) = true
      · simp [hcond]
      · simp only [hcond, Bool.false_eq_true, if_false]
        rcases List.mem_cons.mp hv' with heq | hmem
        · subst heq
          rw [hr] at hr'
          injection hr' with hr''
          subst hr''
          exfalso
          apply hcond
          rcases hpred with hrev | hto
          · simp [hrev]
          · simp [hto]
        · exact ih (fun w hw => hall w (List.mem_cons_of_mem v hw))
            ⟨v', hmem, r', hr', hpred⟩

/-- An empty inner victim action list makes the closure's emptiness check
fire. -/
theorem victim_empty_check_fires (t : Tree) (c : PossibleSandwich)
    (h : ∃ vs ∈ c.victims, ∃ v ∈ vs, t.collect searchFn v = []) :
    ((c.victims.map (fun vs => vs.map (fun v => t.collect searchFn v))).any
      (fun inner => inner.any (fun s => s.isEmpty))) = true := by
  obtain ⟨vs, hvs, v, hv, hcol⟩ := h
  rw [List.any_eq_true]
  refine ⟨vs.map (fun v => t.collect searchFn v),
    List.mem_map.mpr ⟨vs, hvs, rfl⟩, ?_⟩
  rw [List.any_eq_true]
  exact ⟨t.collect searchFn v, List.mem_map.mpr ⟨v, hv, rfl⟩, by simp [hcol]⟩

/-- Core rejection lemma shared by the empty-victim-action and
reverted-victim results: either filter condition makes the closure return
its silent-skip value. -/
theorem processCandidate_reject_core (quote : Nat) (t : Tree)
    (metadata : MetadataCombined) (c : PossibleSandwich)
    (h : (∃ vs ∈ c.victims, ∃ v ∈ vs, t.collect searchFn v = []) ∨
      (∃ v ∈ c.victims.flatten, ∃ r, t.get_root v = some r ∧
        (r.is_revert = true ∨ r.to_address = c.mev_executor_contract))) :
    processCandidate quote t metadata c = some none := by
  by_cases hempty :
    ((c.victims.map (fun vs => vs.map (fun v => t.collect searchFn v))).any
      (fun inner => inner.any (fun s => s.isEmpty))) = true
  · rw [processCandidate, if_pos hempty]
  · rcases h with hemp | hrev
    · exact absurd (victim_empty_check_fires t c hemp) hempty
    · have hall : ∀ v ∈ c.victims.flatten, ∃ r, t.get_root v = some r := by
        intro v hv
        obtain ⟨vs, hvs, hvmem⟩ := List.mem_flatten.mp hv
        cases hgr : t.get_root v with
        | some r => exact ⟨r, rfl⟩
        | none =>
            exfalso
            apply hempty
            apply victim_empty_check_fires t c
            refine ⟨vs, hvs, v, hvmem, ?_⟩
            rw [Tree.collect, hgr]
      have hscan := victimRevertScan_true t c.mev_executor_contract
        c.victims.flatten hall hrev
      rw [processCandidate, if_neg hempty, hscan]

/-- C7: a candidate is silently rejected whenever some collected victim
action list is empty, or some victim transaction is reverted or calls the
candidate's executor contract. -/
theorem victim_filters_reject (quote : Nat) (t : Tree)
    (metadata : MetadataCombined) (c : PossibleSandwich)
    (h : (∃ vs ∈ c.victims, ∃ v ∈ vs, t.collect searchFn v = []) ∨
      (∃ v ∈ c.victims.flatten, ∃ r, t.get_root v = some r ∧
        (r.is_revert = true ∨ r.to_address = c.mev_executor_contract))) :
    processCandidate quote t metadata c = some none :=
  processCandidate_reject_core quote t metadata c h

/-- Witness for C7: the candidate over `T5` whose only victim is the
reverted transaction 401 is silently rejected. -/
theorem victim_filters_reject_witness :
    processCandidate 40 T5 M0 revCand = some none :=
  victim_filters_reject 40 T5 M0 revCand
    (Or.inr ⟨401, by decide,
      ⟨401, 1, true, 5, 23, gD, swapNode 31 41 42 10 20⟩, rfl, Or.inl rfl⟩)

/-- C3 (amended): a tree-lookup miss during candidate processing is not
fatal; in particular a candidate naming a victim hash the tree does not
contain is silently skipped (the missing victim's collected action list is
empty, so the emptiness check fires before any `unwrap`). -/
theorem missing_victim_silent_skip (quote : Nat) (t : Tree)
    (metadata : MetadataCombined) (c : PossibleSandwich) (v : Nat)
    (hv : v ∈ c.victims.flatten) (hmiss : t.get_root v = none) :
    processCandidate quote t metadata c = some none := by
  obtain ⟨vs, hvs, hvmem⟩ := List.mem_flatten.mp hv
  apply processCandidate_reject_core
  refine Or.inl ⟨vs, hvs, v, hvmem, ?_⟩
  rw [Tree.collect, hmiss]

/-- Candidate over `T5` naming a victim hash absent from the tree. -/
def missVictimCand : PossibleSandwich :=
  { eoa := 1, possible_frontruns := [400], possible_backrun := 402,
    mev_executor_contract := 21, victims := [[888]] }

/-- Witness for the amended C3: the candidate with the absent victim hash
888 is silently skipped, not surfaced as an error. -/
theorem missing_victim_silent_skip_witness :
    processCandidate 40 T5 M0 missVictimCand = some none :=
  missing_victim_silent_skip 40 T5 M0 missVictimCand 888 (by decide) rfl

/-- Counterexample to C3 as stated: the candidate `ghostCand` names the
frontrun hash 999 which `T1` does not contain; the closure neither panics
nor skips the candidate — it emits a bundle whose frontrun gas list has
silently lost the missing entry (two frontrun hashes, one gas entry). -/
theorem missing_frontrun_gas_silently_dropped :
    T1.get_root 999 = none ∧ 999 ∈ ghostCand.possible_frontruns ∧
      (processCandidate 40 T1 M0 ghostCand).map
        (Option.map (fun b =>
          (b.2.frontrun_tx_hash.length, b.2.frontrun_gas_details.length))) =
        some (some (2, 1)) := by
  refine ⟨rfl, by decide, ?_⟩
  decide

/-- The header's `mev_tx_index` is the `idx` argument of the
`calculate_sandwich` recursion, which the peel-off retry passes through
unchanged. -/
theorem calcFuel_mev_tx_index :
    ∀ (fuel quote : Nat) (md : MetadataCombined) (idx eoa con : Nat)
      (frs : List Nat) (br : Nat) (frg : List GasDetails) (brg : GasDetails)
      (sa : List (List Actions)) (vt : List (List Nat))
      (va : List (List (List Actions))) (vg : List (List GasDetails))
      (bp : BundleHeader × Sandwich),
      calcSandwichFuel fuel quote md idx eoa con frs br frg brg sa vt va vg =
        some bp →
      bp.1.mev_tx_index = idx := by
  intro fuel
  induction fuel with
  | zero =>
      intro quote md idx eoa con frs br frg brg sa vt va vg bp h
      exact absurd h (by rw [calcSandwichFuel]; exact Option.noConfusion)
  | succ n ih =>
      intro quote md idx eoa con frs br frg brg sa vt va vg bp h
      rw [calcSandwichFuel] at h
      cases hlast : sa.getLast? with
      | none =>
          simp only [hlast] at h
          exact Option.noConfusion h
      | some last =>
          simp only [hlast] at h
          by_cases hov :
            has_pool_overlap (List.map extractSwaps sa.dropLast)
              (extractSwaps last) va = true
          · rw [if_pos hov] at h
            cases husd : usd_delta_by_address quote idx
                (calculate_token_deltas sa) md false with
            | none =>
                simp only [husd] at h
                exact Option.noConfusion h
            | some du =>
                simp only [husd] at h
                injection h with h'
                rw [← h']
          · rw [if_neg hov] at h
            by_cases hlen : frs.length > 1
            · rw [if_pos hlen] at h
              cases h1 : vg.getLast? with
              | none =>
                  simp only [h1] at h
                  exact Option.noConfusion h
              | some g1 =>
                cases h2 : va.getLast? with
                | none =>
                    simp only [h1, h2] at h
                    exact Option.noConfusion h
                | some g2 =>
                  cases h3 : vt.getLast? with
                  | none =>
                      simp only [h1, h2, h3] at h
                      exact Option.noConfusion h
                  | some g3 =>
                    cases h4 : frs.getLast? with
                    | none =>
                        simp only [h1, h2, h3, h4] at h
                        exact Option.noConfusion h
                    | some back_run_tx =>
                      cases h5 : frg.getLast? with
                      | none =>
                          simp only [h1, h2, h3, h4, h5] at h
                          exact Option.noConfusion h
                      | some g =>
                          simp only [h1, h2, h3, h4, h5] at h
                          exact ih quote md idx eoa con frs.dropLast
                            back_run_tx frg.dropLast g sa.dropLast
                            vt.dropLast va.dropLast vg.dropLast bp h
            · rw [if_neg hlen] at h
              exact absurd h Option.noConfusion

/-- Every bundle of a `processTreeOn` run comes from one of the candidates in
the processed list. -/
theorem processTreeOn_mem (quote : Nat) (t : Tree) (metadata : MetadataCombined) :
    ∀ (cands : List PossibleSandwich) (out : List (BundleHeader × Sandwich))
      (b : BundleHeader × Sandwich),
      processTreeOn quote t metadata cands = some out → b ∈ out →
      ∃ c ∈ cands, processCandidate quote t metadata c = some (some b) := by
  intro cands
  induction cands with
  | nil =>
      intro out b h hb
      rw [processTreeOn] at h
      injection h with h'
      subst h'
      exact absurd hb (List.not_mem_nil b)
  | cons c cs ih =>
      intro out b h hb
      rw [processTreeOn] at h
      cases hc : processCandidate quote t metadata c with
      | none => rw [hc] at h; exact absurd h Option.noConfusion
      | some o =>
          rw [hc] at h
          cases o with
          | none =>
              obtain ⟨c', hc', hp⟩ := ih out b h hb
              exact ⟨c', List.mem_cons_of_mem c hc', hp⟩
          | some b' =>
              cases hrest : processTreeOn quote t metadata cs with
              | none => rw [hrest] at h; exact absurd h Option.noConfusion
              | some out' =>
                  rw [hrest] at h
                  injection h with h'
                  subst h'
                  rcases List.mem_cons.mp hb with heq | hmem
                  · subst heq
                    exact ⟨c, List.mem_cons_self c cs, hc⟩
                  · obtain ⟨c', hc', hp⟩ := ih out' b hrest hmem
                    exact ⟨c', List.mem_cons_of_mem c hc', hp⟩

/-- C2 (amended): for every emitted bundle, the scoring index and the
recorded `mev_tx_index` equal the block position of the originating
candidate's `possible_backrun` — the backrun as enumerated, before any
peel-off; after a peel-off this is not the position of the emitted
`backrun_tx_hash`. -/
theorem mev_tx_index_eq_original_backrun_position (quote : Nat) (t : Tree)
    (metadata : MetadataCombined) (out : List (BundleHeader × Sandwich))
    (b : BundleHeader × Sandwich)
    (hrun : process_tree quote t metadata = some out) (hb : b ∈ out) :
    ∃ c ∈ get_possible_sandwich t, ∃ r,
      t.get_root c.possible_backrun = some r ∧
      b.1.mev_tx_index = r.position := by
  obtain ⟨c, hc, hp⟩ := processTreeOn_mem quote t metadata
    (get_possible_sandwich t) out b hrun hb
  refine ⟨c, hc, ?_⟩
  rw [processCandidate] at hp
  by_cases hempty :
    ((c.victims.map (fun vs => vs.map (fun v => t.collect searchFn v))).any
      (fun inner => inner.any (fun s => s.isEmpty))) = true
  · rw [if_pos hempty] at hp
    injection hp with hp'
    exact absurd hp' Option.noConfusion
  · rw [if_neg hempty] at hp
    cases hscan : victimRevertScan t c.mev_executor_contract
        c.victims.flatten with
    | none => rw [hscan] at hp; exact absurd hp Option.noConfusion
    | some flag =>
        rw [hscan] at hp
        cases flag with
        | true =>
            injection hp with hp'
            exact absurd hp' Option.noConfusion
        | false =>
            cases hroot : t.get_root c.possible_backrun with
            | none => rw [hroot] at hp; exact absurd hp Option.noConfusion
            | some back_root =>
                rw [hroot] at hp
                cases hgas : t.get_gas_details c.possible_backrun with
                | none =>
                    rw [hgas] at hp
                    injection hp with hp'
                    exact absurd hp' Option.noConfusion
                | some bg =>
                    rw [hgas] at hp
                    injection hp with hp'
                    refine ⟨back_root, rfl, ?_⟩
                    rw [calculate_sandwich] at hp'
                    exact calcFuel_mev_tx_index _ _ _ _ _ _ _ _ _ _ _ _ _ _
                      b hp'

/-- Placeholder bundle used only as the default of total projections in
concrete witness statements. -/
def dummyBundle : BundleHeader × Sandwich :=
  (⟨0, 0, [], 0, 0, 0, .sandwich, 0, 0⟩,
   ⟨[], [], [], [], [], [], 0, [], gD⟩)

/-- First emitted bundle of a run, as a total function. -/
def firstBundle (o : Option (List (BundleHeader × Sandwich))) :
    BundleHeader × Sandwich :=
  (o.getD []).headD dummyBundle

set_option maxHeartbeats 2000000 in
/-- Witness for the amended C2 on the peel-off block `T2`. -/
theorem mev_tx_index_eq_original_backrun_position_witness :
    ∃ c ∈ get_possible_sandwich T2, ∃ r,
      T2.get_root c.possible_backrun = some r ∧
      (firstBundle (process_tree 40 T2 M0)).1.mev_tx_index = r.position := by
  apply mev_tx_index_eq_original_backrun_position 40 T2 M0
    ((process_tree 40 T2 M0).getD []) (firstBundle (process_tree 40 T2 M0))
  · have hsome : (process_tree 40 T2 M0).isSome = true := by decide
    cases hp : process_tree 40 T2 M0 with
    | none => rw [hp] at hsome; exact absurd hsome (by simp)
    | some out => simp
  · have hlen : ((process_tree 40 T2 M0).getD []).length = 1 := by decide
    rw [firstBundle]
    cases hl : (process_tree 40 T2 M0).getD [] with
    | nil => rw [hl] at hlen; exact absurd hlen (by simp)
    | cons b bs => exact List.mem_cons_self b bs

set_option maxHeartbeats 2000000 in
/-- Counterexample to C2 as stated: on the peel-off block `T2` the single
emitted bundle records `mev_tx_index = 4` (the position of the enumerated
backrun, transaction 204) while its `backrun_tx_hash` is transaction 202 at
position 2 — the scoring index is not the position of the final backrun. -/
theorem mev_tx_index_ne_final_backrun_position :
    (process_tree 40 T2 M0).map
      (List.map (fun b => (b.1.mev_tx_index, T2.posOf b.2.backrun_tx_hash))) =
      some [(4, 2)] ∧ (4 : Nat) ≠ 2 :=
  ⟨by decide, by decide⟩

/-- The sender-1 sandwich candidate of `T1` (pool 31, positions 0-2). -/
def cand1 : PossibleSandwich := ⟨1, [100], 102, 21, [[101]]⟩

/-- The sender-2 sandwich candidate of `T1` (pool 32, positions 3-5). -/
def cand2 : PossibleSandwich := ⟨2, [103], 105, 22, [[104]]⟩

set_option maxHeartbeats 4000000 in
/-- C1: `process_tree`'s output order depends on the iteration order of the
deduplicating `HashSet` of `get_possible_sandwich`. Both lists below are
orders of the same two-candidate set enumerated from `T1`, yet they yield
differently ordered bundle sequences, so the emission order is whatever the
hash-set iteration happens to be — it is not re-sorted before emission. -/
theorem process_tree_order_dependent :
    [cand1, cand2].Perm (get_possible_sandwich T1) ∧
    [cand2, cand1].Perm (get_possible_sandwich T1) ∧
    (processTreeOn 40 T1 M0 [cand1, cand2]).map
      (List.map (fun b => b.2.backrun_tx_hash)) = some [102, 105] ∧
    (processTreeOn 40 T1 M0 [cand2, cand1]).map
      (List.map (fun b => b.2.backrun_tx_hash)) = some [105, 102] ∧
    processTreeOn 40 T1 M0 [cand1, cand2] ≠
      processTreeOn 40 T1 M0 [cand2, cand1] := by
  refine ⟨by decide, by decide, by decide, by decide, ?_⟩
  intro heq
  have ha : (processTreeOn 40 T1 M0 [cand1, cand2]).map
      (List.map (fun b => b.2.backrun_tx_hash)) = some [102, 105] := by decide
  have hb : (processTreeOn 40 T1 M0 [cand2, cand1]).map
      (List.map (fun b => b.2.backrun_tx_hash)) = some [105, 102] := by decide
  rw [heq] at ha
  exact absurd (ha.symm.trans hb) (by decide)

/-- An `Option` known to be `some` equals `some` of its default-read. -/
theorem option_eq_some_getD {α : Type} {o : Option α} (h : o.isSome = true)
    (d : α) : o = some (o.getD d) := by
  cases o with
  | none => exact absurd h (by simp)
  | some a => rfl

/-- Accounting of an emitted bundle, by induction on the recursion depth
allowance: the bribe is the gas price of the summed `gas_paid` of the
emitted gas details, and the profit is the summed USD deltas of the
emission-level searcher actions minus the bribe. -/
theorem calcFuel_accounting :
    ∀ (fuel quote : Nat) (md : MetadataCombined) (idx eoa con : Nat)
      (frs : List Nat) (br : Nat) (frg : List GasDetails) (brg : GasDetails)
      (sa : List (List Actions)) (vt : List (List Nat))
      (va : List (List (List Actions))) (vg : List (List GasDetails))
      (bp : BundleHeader × Sandwich),
      calcSandwichFuel fuel quote md idx eoa con frs br frg brg sa vt va vg =
        some bp →
      bp.1.finalized_bribe_usd =
        md.get_gas_price_usd
          (((bp.2.frontrun_gas_details ++ [bp.2.backrun_gas_details]).map
            GasDetails.gas_paid).sum) ∧
      ∃ acts du,
        usd_delta_by_address quote idx (calculate_token_deltas acts) md
          false = some du ∧
        (∃ last, acts.getLast? = some last ∧
          bp.2.backrun_swaps = extractSwaps last) ∧
        bp.2.frontrun_swaps = acts.dropLast.map extractSwaps ∧
        bp.1.finalized_profit_usd =
          (du.map (·.2)).foldl (· + ·) 0 - bp.1.finalized_bribe_usd := by
  intro fuel
  induction fuel with
  | zero =>
      intro quote md idx eoa con frs br frg brg sa vt va vg bp h
      exact absurd h (by rw [calcSandwichFuel]; exact Option.noConfusion)
  | succ n ih =>
      intro quote md idx eoa con frs br frg brg sa vt va vg bp h
      rw [calcSandwichFuel] at h
      cases hlast : sa.getLast? with
      | none =>
          simp only [hlast] at h
          exact Option.noConfusion h
      | some last =>
          simp only [hlast] at h
          by_cases hov :
            has_pool_overlap (List.map extractSwaps sa.dropLast)
              (extractSwaps last) va = true
          · rw [if_pos hov] at h
            cases husd : usd_delta_by_address quote idx
                (calculate_token_deltas sa) md false with
            | none =>
                simp only [husd] at h
                exact Option.noConfusion h
            | some du =>
                simp only [husd] at h
                injection h with h'
                rw [← h']
                refine ⟨by simp, sa, du, husd, ⟨last, hlast, rfl⟩, rfl, ?_⟩
                simp
          · rw [if_neg hov] at h
            by_cases hlen : frs.length > 1
            · rw [if_pos hlen] at h
              cases h1 : vg.getLast? with
              | none =>
                  simp only [h1] at h
                  exact Option.noConfusion h
              | some g1 =>
                cases h2 : va.getLast? with
                | none =>
                    simp only [h1, h2] at h
                    exact Option.noConfusion h
                | some g2 =>
                  cases h3 : vt.getLast? with
                  | none =>
                      simp only [h1, h2, h3] at h
                      exact Option.noConfusion h
                  | some g3 =>
                    cases h4 : frs.getLast? with
                    | none =>
                        simp only [h1, h2, h3, h4] at h
                        exact Option.noConfusion h
                    | some back_run_tx =>
                      cases h5 : frg.getLast? with
                      | none =>
                          simp only [h1, h2, h3, h4, h5] at h
                          exact Option.noConfusion h
                      | some g =>
                          simp only [h1, h2, h3, h4, h5] at h
                          exact ih quote md idx eoa con frs.dropLast
                            back_run_tx frg.dropLast g sa.dropLast
                            vt.dropLast va.dropLast vg.dropLast bp h
            · rw [if_neg hlen] at h
              exact absurd h Option.noConfusion

/-- C9: for every bundle emitted by `calculate_sandwich`,
`finalized_bribe_usd` is `get_gas_price_usd` of the summed `gas_paid` over
the final frontrun gas details and the final backrun gas details (exactly
the gas details materialized in the bundle), and `finalized_profit_usd` is
the summed per-address USD delta of the emission-level searcher actions
minus that bribe, all computed in exact rationals. -/
theorem bribe_and_profit_accounting (quote : Nat) (md : MetadataCombined)
    (idx eoa con : Nat) (frs : List Nat) (br : Nat) (frg : List GasDetails)
    (brg : GasDetails) (sa : List (List Actions)) (vt : List (List Nat))
    (va : List (List (List Actions))) (vg : List (List GasDetails))
    (bp : BundleHeader × Sandwich)
    (h : calculate_sandwich quote md idx eoa con frs br frg brg sa vt va vg =
      some bp) :
    bp.1.finalized_bribe_usd =
      md.get_gas_price_usd
        (((bp.2.frontrun_gas_details ++ [bp.2.backrun_gas_details]).map
          GasDetails.gas_paid).sum) ∧
    ∃ acts du,
      usd_delta_by_address quote idx (calculate_token_deltas acts) md false =
        some du ∧
      (∃ last, acts.getLast? = some last ∧
        bp.2.backrun_swaps = extractSwaps last) ∧
      bp.2.frontrun_swaps = acts.dropLast.map extractSwaps ∧
      bp.1.finalized_profit_usd =
        (du.map (·.2)).foldl (· + ·) 0 - bp.1.finalized_bribe_usd := by
  rw [calculate_sandwich] at h
  exact calcFuel_accounting (frs.length + 1) quote md idx eoa con frs br frg
    brg sa vt va vg bp h

/-- Concrete single-frontrun `calculate_sandwich` call that emits. -/
def calcTest : Option (BundleHeader × Sandwich) :=
  calculate_sandwich 40 M0 0 1 21 [7] 8 [] gD
    [[Actions.swap ⟨31, 41, 42, 100, 200⟩],
     [Actions.swap ⟨31, 42, 41, 200, 100⟩]]
    [] [[[Actions.swap ⟨31, 41, 42, 10, 20⟩]]] []

/-- Witness for C9 on the concrete emitting call `calcTest`. -/
theorem bribe_and_profit_accounting_witness :
    (calcTest.getD dummyBundle).1.finalized_bribe_usd =
      M0.get_gas_price_usd
        ((((calcTest.getD dummyBundle).2.frontrun_gas_details ++
          [(calcTest.getD dummyBundle).2.backrun_gas_details]).map
          GasDetails.gas_paid).sum) ∧
    ∃ acts du,
      usd_delta_by_address 40 0 (calculate_token_deltas acts) M0 false =
        some du ∧
      (∃ last, acts.getLast? = some last ∧
        (calcTest.getD dummyBundle).2.backrun_swaps = extractSwaps last) ∧
      (calcTest.getD dummyBundle).2.frontrun_swaps =
        acts.dropLast.map extractSwaps ∧
      (calcTest.getD dummyBundle).1.finalized_profit_usd =
        (du.map (·.2)).foldl (· + ·) 0 -
          (calcTest.getD dummyBundle).1.finalized_bribe_usd := by
  have hsome : calcTest.isSome = true := by decide
  exact bribe_and_profit_accounting 40 M0 0 1 21 [7] 8 [] gD
    [[Actions.swap ⟨31, 41, 42, 100, 200⟩],
     [Actions.swap ⟨31, 42, 41, 200, 100⟩]]
    [] [[[Actions.swap ⟨31, 41, 42, 10, 20⟩]]] []
    (calcTest.getD dummyBundle) (option_eq_some_getD hsome dummyBundle)

/-- Lookup after insert at the same key. -/
theorem alookup_ainsert_self {α : Type} (l : List (Nat × α)) (k : Nat)
    (v : α) : alookup (ainsert l k v) k = some v := by
  induction l with
  | nil => simp [ainsert, alookup]
  | cons kv rest ih =>
      by_cases h : kv.1 = k
      · simp [ainsert, alookup, h]
      · simp only [ainsert, alookup]
        rw [if_neg h, alookup, if_neg h]
        exact ih

/-- Lookup after insert at a different key. -/
theorem alookup_ainsert_ne {α : Type} (l : List (Nat × α)) (k k' : Nat)
    (v : α) (h : k' ≠ k) : alookup (ainsert l k v) k' = alookup l k' := by
  induction l with
  | nil => simp [ainsert, alookup, Ne.symm h]
  | cons kv rest ih =>
      rw [ainsert]
      by_cases hk : kv.1 = k
      · rw [if_pos hk, alookup, if_neg (Ne.symm h), alookup,
          if_neg (fun he : kv.1 = k' => h (he.symm.trans hk))]
      · rw [if_neg hk, alookup, alookup]
        by_cases hk' : kv.1 = k'
        · rw [if_pos hk', if_pos hk']
        · rw [if_neg hk', if_neg hk']
          exact ih

/-- Members after insert: the inserted pair or an original member. -/
theorem mem_ainsert {α : Type} {l : List (Nat × α)} {k : Nat} {v : α}
    {kv : Nat × α} (h : kv ∈ ainsert l k v) : kv = (k, v) ∨ kv ∈ l := by
  induction l with
  | nil => simpa [ainsert] using h
  | cons kv0 rest ih =>
      by_cases hk : kv0.1 = k
      · rw [ainsert, if_pos hk] at h
        rcases List.mem_cons.mp h with he | hm
        · exact Or.inl he
        · exact Or.inr (List.mem_cons_of_mem kv0 hm)
      · rw [ainsert, if_neg hk] at h
        rcases List.mem_cons.mp h with he | hm
        · exact Or.inr (he ▸ List.mem_cons_self kv0 rest)
        · rcases ih hm with he | hm'
          · exact Or.inl he
          · exact Or.inr (List.mem_cons_of_mem kv0 hm')

/-- Keys after insert. -/
theorem mem_keys_ainsert {α : Type} {l : List (Nat × α)} {k k' : Nat}
    {v : α} : k' ∈ (ainsert l k v).map Prod.fst ↔
      k' ∈ l.map Prod.fst ∨ k' = k := by
  induction l with
  | nil => simp [ainsert]
  | cons kv0 rest ih =>
      by_cases hk : kv0.1 = k
      · rw [ainsert, if_pos hk]
        simp only [List.map_cons, List.mem_cons, ih, hk]
        constructor
        · rintro (he | hm)
          · exact Or.inr he
          · exact Or.inl (Or.inr hm)
        · rintro ((he | hm) | he)
          · exact Or.inl (hk ▸ he)
          · exact Or.inr hm
          · exact Or.inl he
      · rw [ainsert, if_neg hk]
        simp only [List.map_cons, List.mem_cons, ih]
        tauto

/-- Insert preserves key distinctness. -/
theorem nodup_keys_ainsert {α : Type} {l : List (Nat × α)} {k : Nat} {v : α}
    (h : (l.map Prod.fst).Nodup) : ((ainsert l k v).map Prod.fst).Nodup := by
  induction l with
  | nil => simp [ainsert]
  | cons kv0 rest ih =>
      rw [List.map_cons, List.nodup_cons] at h
      by_cases hk : kv0.1 = k
      · rw [ainsert, if_pos hk]
        simp only [List.map_cons, List.nodup_cons]
        exact ⟨hk ▸ h.1, h.2⟩
      · rw [ainsert, if_neg hk]
        simp only [List.map_cons, List.nodup_cons]
        refine ⟨fun hm => ?_, ih h.2⟩
        rcases mem_keys_ainsert.mp hm with hm' | he
        · exact h.1 hm'
        · exact hk he

/-- Members after insert into a key-distinct list: the inserted pair or an
original member with a different key. -/
theorem mem_ainsert_strong {α : Type} {l : List (Nat × α)} {k : Nat} {v : α}
    {kv : Nat × α} (hnd : (l.map Prod.fst).Nodup) (h : kv ∈ ainsert l k v) :
    kv = (k, v) ∨ (kv ∈ l ∧ kv.1 ≠ k) := by
  induction l with
  | nil =>
      rcases mem_ainsert h with he | hm
      · exact Or.inl he
      · exact absurd hm (List.not_mem_nil kv)
  | cons kv0 rest ih =>
      rw [List.map_cons, List.nodup_cons] at hnd
      by_cases hk : kv0.1 = k
      · rw [ainsert, if_pos hk] at h
        rcases List.mem_cons.mp h with he | hm
        · exact Or.inl he
        · refine Or.inr ⟨List.mem_cons_of_mem kv0 hm, fun he => ?_⟩
          exact hnd.1 (hk ▸ he ▸ List.mem_map_of_mem Prod.fst hm)
      · rw [ainsert, if_neg hk] at h
        rcases List.mem_cons.mp h with he | hm
        · exact Or.inr ⟨he ▸ List.mem_cons_self kv0 rest, he ▸ hk⟩
        · rcases ih hnd.2 hm with he | ⟨hm', hne⟩
          · exact Or.inl he
          · exact Or.inr ⟨List.mem_cons_of_mem kv0 hm', hne⟩

/-- Lookup after removal of the same key. -/
theorem alookup_aremove_self {α : Type} (l : List (Nat × α)) (k : Nat) :
    alookup (aremove l k) k = none := by
  induction l with
  | nil => rfl
  | cons kv0 rest ih =>
      rw [aremove, List.filter_cons]
      rw [aremove] at ih
      by_cases hk : kv0.1 = k
      · simp only [hk, ne_eq, not_true_eq_false, decide_False,
          Bool.false_eq_true, if_false]
        exact ih
      · simp only [ne_eq, hk, not_false_eq_true, decide_True, if_true,
          alookup, if_neg hk]
        exact ih

/-- Lookup after removal of a different key. -/
theorem alookup_aremove_ne {α : Type} (l : List (Nat × α)) (k k' : Nat)
    (h : k' ≠ k) : alookup (aremove l k) k' = alookup l k' := by
  induction l with
  | nil => rfl
  | cons kv0 rest ih =>
      rw [aremove, List.filter_cons]
      rw [aremove] at ih
      by_cases hk : kv0.1 = k
      · simp only [hk, ne_eq, not_true_eq_false, decide_False,
          Bool.false_eq_true, if_false]
        rw [alookup, if_neg (fun he : kv0.1 = k' => h (he.symm.trans hk))]
        exact ih
      · simp only [ne_eq, hk, not_false_eq_true, decide_True, if_true]
        rw [alookup, alookup]
        by_cases hk' : kv0.1 = k'
        · rw [if_pos hk', if_pos hk']
        · rw [if_neg hk', if_neg hk']
          exact ih

/-- Members after removal. -/
theorem mem_aremove {α : Type} {l : List (Nat × α)} {k : Nat}
    {kv : Nat × α} (h : kv ∈ aremove l k) : kv ∈ l ∧ kv.1 ≠ k := by
  rw [aremove] at h
  have := List.mem_filter.mp h
  exact ⟨this.1, by simpa using this.2⟩

/-- Removal preserves key distinctness. -/
theorem nodup_keys_aremove {α : Type} {l : List (Nat × α)} {k : Nat}
    (h : (l.map Prod.fst).Nodup) : ((aremove l k).map Prod.fst).Nodup := by
  rw [aremove]
  exact h.sublist ((List.filter_sublist l).map Prod.fst)

/-- A successful lookup is a member. -/
theorem alookup_mem {α : Type} {l : List (Nat × α)} {k : Nat} {v : α}
    (h : alookup l k = some v) : (k, v) ∈ l := by
  induction l with
  | nil => exact absurd h Option.noConfusion
  | cons kv0 rest ih =>
      rw [alookup] at h
      by_cases hk : kv0.1 = k
      · rw [if_pos hk] at h
        injection h with h'
        have : kv0 = (k, v) := by
          cases kv0
          simp only at hk h'
          rw [hk, h']
        exact this ▸ List.mem_cons_self kv0 rest
      · rw [if_neg hk] at h
        exact List.mem_cons_of_mem kv0 (ih h)

/-- Lookup through the victim-append pass. -/
theorem alookup_appendVictim (pv : List (Nat × List Nat)) (h k : Nat) :
    alookup (appendVictim pv h) k =
      (alookup pv k).map (fun vs => if k = h then vs else vs ++ [h]) := by
  induction pv with
  | nil => rfl
  | cons kv0 rest ih =>
      rw [appendVictim, List.map_cons]
      by_cases hk0 : kv0.1 = h
      · rw [if_pos hk0]
        rw [alookup, alookup]
        by_cases hk : kv0.1 = k
        · rw [if_pos hk, if_pos hk]
          simp [← hk, hk0]
        · rw [if_neg hk, if_neg hk]
          rw [appendVictim] at ih
          exact ih
      · rw [if_neg hk0]
        rw [alookup, alookup]
        by_cases hk : kv0.1 = k
        · rw [if_pos hk, if_pos hk]
          have hkh : ¬k = h := fun he => hk0 (hk.trans he)
          simp [hkh]
        · rw [if_neg hk, if_neg hk]
          rw [appendVictim] at ih
          exact ih

/-- Members of the victim-append pass. -/
theorem mem_appendVictim {pv : List (Nat × List Nat)} {h : Nat}
    {kv : Nat × List Nat} (hm : kv ∈ appendVictim pv h) :
    ∃ vs, (kv.1, vs) ∈ pv ∧
      ((kv.1 = h ∧ kv.2 = vs) ∨ (kv.1 ≠ h ∧ kv.2 = vs ++ [h])) := by
  rw [appendVictim] at hm
  obtain ⟨kv0, hkv0, heq⟩ := List.mem_map.mp hm
  by_cases hk : kv0.1 = h
  · rw [if_pos hk] at heq
    exact ⟨kv0.2, by rw [← heq]; simpa using hkv0,
      Or.inl ⟨by rw [← heq]; exact hk, by rw [← heq]⟩⟩
  · rw [if_neg hk] at heq
    refine ⟨kv0.2, ?_, Or.inr ⟨by rw [← heq]; exact hk, by rw [← heq]⟩⟩
    rw [← heq]
    simpa using hkv0

/-- The victim-append pass preserves keys. -/
theorem keys_appendVictim (pv : List (Nat × List Nat)) (h : Nat) :
    (appendVictim pv h).map Prod.fst = pv.map Prod.fst := by
  rw [appendVictim, List.map_map]
  apply List.map_congr_left
  intro kv _
  by_cases hk : kv.1 = h
  · simp [hk]
  · simp [hk]

/-- Well-formed candidate chain: the frontruns and the backrun are in
strictly increasing position order and the i-th victim list lies strictly
between the i-th frontrun and the next leg. -/
def wfC (pos : Nat → Nat) : List Nat → List (List Nat) → Nat → Prop
  | [], vss, _ => vss = []
  | _ :: _, [], _ => False
  | f :: fs, vs :: vss, b =>
      pos f < pos (fs.headD b) ∧
      (∀ v ∈ vs, pos f < pos v ∧ pos v < pos (fs.headD b)) ∧
      wfC pos fs vss b

/-- A well-formed chain has as many victim groups as frontruns. -/
theorem wfC_length {pos : Nat → Nat} :
    ∀ {fs : List Nat} {vss : List (List Nat)} {b : Nat},
      wfC pos fs vss b → vss.length = fs.length := by
  intro fs
  induction fs with
  | nil =>
      intro vss b h
      rw [wfC] at h
      rw [h]
      rfl
  | cons f fs ih =>
      intro vss b h
      cases vss with
      | nil => rw [wfC] at h; exact h.elim
      | cons vs vss =>
          rw [wfC] at h
          simp only [List.length_cons]
          exact congrArg (· + 1) (ih h.2.2)

/-- Extending a well-formed chain: append the old backrun as a new frontrun
with a victim group lying strictly between it and the new backrun. -/
theorem wfC_snoc {pos : Nat → Nat} :
    ∀ {fs : List Nat} {vss : List (List Nat)} {b : Nat} {fv : List Nat}
      {c : Nat}, wfC pos fs vss b →
      (∀ v ∈ fv, pos b < pos v ∧ pos v < pos c) → pos b < pos c →
      wfC pos (fs ++ [b]) (vss ++ [fv]) c := by
  intro fs
  induction fs with
  | nil =>
      intro vss b fv c h hfv hbc
      rw [wfC] at h
      subst h
      rw [List.nil_append, List.nil_append, wfC]
      exact ⟨hbc, hfv, rfl⟩
  | cons f fs ih =>
      intro vss b fv c h hfv hbc
      cases vss with
      | nil => rw [wfC] at h; exact h.elim
      | cons vs vss =>
          rw [wfC] at h
          rw [List.cons_append, List.cons_append, wfC]
          have hhead : (fs ++ [b]).headD c = fs.headD b := by
            cases fs with
            | nil => rfl
            | cons g gs => rfl
          rw [hhead]
          exact ⟨h.1, h.2.1, ih h.2.2 hfv hbc⟩

/-- Peeling a well-formed chain: dropping the last frontrun and its victim
group leaves a well-formed chain whose backrun is the dropped frontrun. -/
theorem wfC_unsnoc {pos : Nat → Nat} :
    ∀ {fs : List Nat} {vss : List (List Nat)} {f : Nat} {vs : List Nat}
      {b : Nat}, wfC pos (fs ++ [f]) (vss ++ [vs]) b →
      fs.length = vss.length → wfC pos fs vss f := by
  intro fs
  induction fs with
  | nil =>
      intro vss f vs b h hlen
      have : vss = [] := by
        cases vss with
        | nil => rfl
        | cons _ _ => exact absurd hlen (by simp)
      subst this
      rw [wfC]
  | cons f0 fs ih =>
      intro vss f vs b h hlen
      cases vss with
      | nil => exact absurd hlen (by simp)
      | cons vs0 vss =>
          rw [List.cons_append, List.cons_append, wfC] at h
          rw [wfC]
          have hhead : (fs ++ [f]).headD b = fs.headD f := by
            cases fs with
            | nil => rfl
            | cons g gs => rfl
          rw [hhead] at h
          exact ⟨h.1, h.2.1, ih h.2.2 (by simpa using hlen)⟩

/-- The first frontrun of a well-formed chain precedes the backrun. -/
theorem wfC_first_lt_backrun {pos : Nat → Nat} :
    ∀ {fs : List Nat} {f : Nat} {vss : List (List Nat)} {b : Nat},
      wfC pos (f :: fs) vss b → pos f < pos b := by
  intro fs
  induction fs with
  | nil =>
      intro f vss b h
      cases vss with
      | nil => rw [wfC] at h; exact h.elim
      | cons vs vss =>
          rw [wfC] at h
          simpa using h.1
  | cons f1 fs ih =>
      intro f vss b h
      cases vss with
      | nil => rw [wfC] at h; exact h.elim
      | cons vs vss =>
          rw [wfC] at h
          simp only [List.headD_cons] at h
          exact h.1.trans (ih h.2.2)

/-- Every victim of a well-formed chain lies strictly after the first
frontrun and strictly before the backrun. -/
theorem wfC_victims_bounds {pos : Nat → Nat} :
    ∀ {fs : List Nat} {vss : List (List Nat)} {b : Nat},
      wfC pos fs vss b → fs ≠ [] →
      ∀ v ∈ vss.flatten, pos (fs.headD 0) < pos v ∧ pos v < pos b := by
  intro fs
  induction fs with
  | nil => intro vss b _ hne; exact absurd rfl hne
  | cons f fs ih =>
      intro vss b h _ v hv
      cases vss with
      | nil => rw [wfC] at h; exact h.elim
      | cons vs vss =>
          rw [wfC] at h
          have hnext_lt : pos (fs.headD b) ≤ pos b := by
            cases fs with
            | nil => exact le_refl _
            | cons f1 fs' =>
                exact le_of_lt (wfC_first_lt_backrun h.2.2)
          rw [List.flatten_cons] at hv
          rcases List.mem_append.mp hv with hv1 | hv2
          · have := h.2.1 v hv1
            exact ⟨this.1, this.2.trans_le hnext_lt⟩
          · cases fs with
            | nil =>
                have : vss = [] := by rw [wfC] at h; exact h.2.2
                subst this
                exact absurd hv2 (by simp)
            | cons f1 fs' =>
                have hrec := ih h.2.2 (by simp) v hv2
                simp only [List.headD_cons] at hrec ⊢
                exact ⟨h.1.trans hrec.1, hrec.2⟩

/-- Invariant of the duplicate-sender scan state after processing all roots
of position below `n`: the three maps have distinct keys; the sender map
holds, per sender, its latest non-reverted hash, which still owns an open
victim list; open victim lists lie strictly between their key and `n`; and
every in-progress candidate is a well-formed chain whose backrun is its
sender's latest hash. -/
structure InvSenders (pos sender : Nat → Nat) (st : SenderScanState)
    (n : Nat) : Prop where
  ndDup : (st.duplicate_senders.map Prod.fst).Nodup
  ndSand : (st.possible_sandwiches.map Prod.fst).Nodup
  dupPos : ∀ kv ∈ st.duplicate_senders, pos kv.2 < n
  dupSender : ∀ kv ∈ st.duplicate_senders, sender kv.2 = kv.1
  dupVict : ∀ kv ∈ st.duplicate_senders,
    (alookup st.possible_victims kv.2).isSome = true
  victPos : ∀ kv ∈ st.possible_victims,
    pos kv.1 < n ∧ ∀ v ∈ kv.2, pos kv.1 < pos v ∧ pos v < n
  sandWf : ∀ kv ∈ st.possible_sandwiches,
    kv.2.possible_frontruns ≠ [] ∧
      wfC pos kv.2.possible_frontruns kv.2.victims kv.2.possible_backrun
  sandCoup : ∀ kv ∈ st.possible_sandwiches,
    alookup st.duplicate_senders kv.1 = some kv.2.possible_backrun

/-- The sender-scan invariant is monotone in the bound. -/
theorem invSenders_mono {pos sender : Nat → Nat} {st : SenderScanState}
    {n m : Nat} (h : InvSenders pos sender st n) (hnm : n ≤ m) :
    InvSenders pos sender st m where
  ndDup := h.ndDup
  ndSand := h.ndSand
  dupPos := fun kv hm => lt_of_lt_of_le (h.dupPos kv hm) hnm
  dupSender := h.dupSender
  dupVict := h.dupVict
  victPos := fun kv hm =>
    ⟨lt_of_lt_of_le ((h.victPos kv hm).1) hnm,
     fun v hv => ⟨((h.victPos kv hm).2 v hv).1,
       lt_of_lt_of_le ((h.victPos kv hm).2 v hv).2 hnm⟩⟩
  sandWf := h.sandWf
  sandCoup := h.sandCoup

/-- Members of the sandwich upsert (sender scan): the fresh candidate, the
extended candidate, or an untouched entry under a different key. -/
theorem mem_upsertSandwichSenders {sands : List (Nat × PossibleSandwich)}
    {r : Root} {prev : Nat} {fv : List Nat} {kv : Nat × PossibleSandwich}
    (hnd : (sands.map Prod.fst).Nodup)
    (h : kv ∈ upsertSandwichSenders sands r prev fv) :
    (alookup sands r.eoa_address = none ∧
      kv = (r.eoa_address,
        { eoa := r.eoa_address
          possible_frontruns := [prev]
          possible_backrun := r.tx_hash
          mev_executor_contract := r.to_address
          victims := [fv] })) ∨
    (∃ sw, alookup sands r.eoa_address = some sw ∧
      kv = (r.eoa_address,
        { sw with
          possible_frontruns := sw.possible_frontruns ++ [prev]
          possible_backrun := r.tx_hash
          victims := sw.victims ++ [fv] })) ∨
    (kv ∈ sands ∧ kv.1 ≠ r.eoa_address) := by
  rw [upsertSandwichSenders] at h
  cases halk : alookup sands r.eoa_address with
  | none =>
      rw [halk] at h
      rcases mem_ainsert_strong hnd h with he | hm
      · exact Or.inl ⟨rfl, he⟩
      · exact Or.inr (Or.inr hm)
  | some sw =>
      rw [halk] at h
      rcases mem_ainsert_strong hnd h with he | hm
      · exact Or.inr (Or.inl ⟨sw, rfl, he⟩)
      · exact Or.inr (Or.inr hm)

/-- The sandwich upsert (sender scan) preserves key distinctness. -/
theorem nodup_keys_upsertSandwichSenders {sands : List (Nat × PossibleSandwich)}
    {r : Root} {prev : Nat} {fv : List Nat}
    (hnd : (sands.map Prod.fst).Nodup) :
    ((upsertSandwichSenders sands r prev fv).map Prod.fst).Nodup := by
  rw [upsertSandwichSenders]
  cases alookup sands r.eoa_address with
  | none => exact nodup_keys_ainsert hnd
  | some sw => exact nodup_keys_ainsert hnd

/-- One step of the sender scan preserves the invariant, advancing the bound
past the processed root's position. -/
theorem stepSenders_inv (pos sender : Nat → Nat) (st : SenderScanState)
    (r : Root) (n : Nat) (hin : InvSenders pos sender st n)
    (hsend : sender r.tx_hash = r.eoa_address) (hn : n ≤ pos r.tx_hash) :
    InvSenders pos sender (stepSenders st r) (pos r.tx_hash + 1) := by
  rw [stepSenders]
  by_cases hrev : r.is_revert = true
  · rw [if_pos hrev]
    exact invSenders_mono hin (by omega)
  · rw [if_neg hrev]
    cases hdup : alookup st.duplicate_senders r.eoa_address with
    | none =>
        simp only [hdup]
        refine ⟨nodup_keys_ainsert hin.ndDup, hin.ndSand, ?_, ?_, ?_, ?_,
          hin.sandWf, ?_⟩
        · intro kv hkv
          rcases mem_ainsert hkv with he | hm
          · have h2 : kv.2 = r.tx_hash := congrArg Prod.snd he
            rw [h2]
            omega
          · have := hin.dupPos kv hm
            omega
        · intro kv hkv
          rcases mem_ainsert_strong hin.ndDup hkv with he | ⟨hm, _⟩
          · have h1 : kv.1 = r.eoa_address := congrArg Prod.fst he
            have h2 : kv.2 = r.tx_hash := congrArg Prod.snd he
            rw [h1, h2]
            exact hsend
          · exact hin.dupSender kv hm
        · intro kv hkv
          rcases mem_ainsert_strong hin.ndDup hkv with he | ⟨hm, hne⟩
          · have h2 : kv.2 = r.tx_hash := congrArg Prod.snd he
            rw [h2, alookup_appendVictim, alookup_ainsert_self]
            simp
          · have hold := hin.dupVict kv hm
            have hpos := hin.dupPos kv hm
            have hnecur : kv.2 ≠ r.tx_hash := fun he => by
              rw [he] at hpos
              omega
            rw [alookup_appendVictim, alookup_ainsert_ne _ _ _ _ hnecur]
            obtain ⟨vs, hvs⟩ := Option.isSome_iff_exists.mp hold
            rw [hvs]
            simp
        · intro kv hkv
          obtain ⟨vs, hvsmem, hshape⟩ := mem_appendVictim hkv
          rcases mem_ainsert hvsmem with he | hm
          · have hk1 : kv.1 = r.tx_hash := congrArg Prod.fst he
            have hvs : vs = [] := congrArg Prod.snd he
            rcases hshape with ⟨_, h2⟩ | ⟨hne, _⟩
            · refine ⟨by rw [hk1]; omega, ?_⟩
              intro v hv
              rw [h2, hvs] at hv
              exact absurd hv (List.not_mem_nil v)
            · exact absurd hk1 hne
          · have hold := hin.victPos (kv.1, vs) hm
            have hold1 : pos kv.1 < n := by simpa using hold.1
            have hold2 : ∀ v ∈ vs, pos kv.1 < pos v ∧ pos v < n := by
              simpa using hold.2
            have hk1ne : kv.1 ≠ r.tx_hash := fun he => by
              rw [he] at hold1
              omega
            rcases hshape with ⟨he1, _⟩ | ⟨_, h2⟩
            · exact absurd he1 hk1ne
            · refine ⟨by omega, ?_⟩
              intro v hv
              rw [h2] at hv
              rcases List.mem_append.mp hv with hv1 | hv2
              · have := hold2 v hv1
                exact ⟨this.1, by omega⟩
              · have hveq : v = r.tx_hash := by simpa using hv2
                rw [hveq]
                exact ⟨by omega, by omega⟩
        · intro kv hkv
          have hcoup := hin.sandCoup kv hkv
          have hk1ne : kv.1 ≠ r.eoa_address := fun he => by
            rw [he, hdup] at hcoup
            exact Option.noConfusion hcoup
          rw [alookup_ainsert_ne _ _ _ _ hk1ne]
          exact hcoup
    | some prev =>
        have hprevmem : (r.eoa_address, prev) ∈ st.duplicate_senders :=
          alookup_mem hdup
        have hprevsender : sender prev = r.eoa_address := by
          simpa using hin.dupSender _ hprevmem
        have hprevpos : pos prev < n := by
          simpa using hin.dupPos _ hprevmem
        obtain ⟨vs0, hvs0⟩ :=
          Option.isSome_iff_exists.mp (by simpa using hin.dupVict _ hprevmem)
        have hvs0mem : (prev, vs0) ∈ st.possible_victims := alookup_mem hvs0
        have hvb2 : ∀ v ∈ vs0, pos prev < pos v ∧ pos v < n := by
          simpa using (hin.victPos _ hvs0mem).2
        simp only [hdup, hvs0]
        refine ⟨nodup_keys_ainsert hin.ndDup,
          nodup_keys_upsertSandwichSenders hin.ndSand, ?_, ?_, ?_, ?_, ?_,
          ?_⟩
        · intro kv hkv
          rcases mem_ainsert hkv with he | hm
          · have h2 : kv.2 = r.tx_hash := congrArg Prod.snd he
            rw [h2]
            omega
          · have := hin.dupPos kv hm
            omega
        · intro kv hkv
          rcases mem_ainsert_strong hin.ndDup hkv with he | ⟨hm, _⟩
          · have h1 : kv.1 = r.eoa_address := congrArg Prod.fst he
            have h2 : kv.2 = r.tx_hash := congrArg Prod.snd he
            rw [h1, h2]
            exact hsend
          · exact hin.dupSender kv hm
        · intro kv hkv
          rcases mem_ainsert_strong hin.ndDup hkv with he | ⟨hm, hne⟩
          · have h2 : kv.2 = r.tx_hash := congrArg Prod.snd he
            rw [h2, alookup_appendVictim, alookup_ainsert_self]
            simp
          · have hold := hin.dupVict kv hm
            have hpos := hin.dupPos kv hm
            have hnecur : kv.2 ≠ r.tx_hash := fun he => by
              rw [he] at hpos
              omega
            have hneprev : kv.2 ≠ prev := fun he => by
              apply hne
              rw [← hin.dupSender kv hm, he, hprevsender]
            rw [alookup_appendVictim, alookup_ainsert_ne _ _ _ _ hnecur,
              alookup_aremove_ne _ _ _ hneprev]
            obtain ⟨vs, hvs⟩ := Option.isSome_iff_exists.mp hold
            rw [hvs]
            simp
        · intro kv hkv
          obtain ⟨vs, hvsmem, hshape⟩ := mem_appendVictim hkv
          rcases mem_ainsert hvsmem with he | hm
          · have hk1 : kv.1 = r.tx_hash := congrArg Prod.fst he
            have hvs : vs = [] := congrArg Prod.snd he
            rcases hshape with ⟨_, h2⟩ | ⟨hne, _⟩
            · refine ⟨by rw [hk1]; omega, ?_⟩
              intro v hv
              rw [h2, hvs] at hv
              exact absurd hv (List.not_mem_nil v)
            · exact absurd hk1 hne
          · have hm' := (mem_aremove hm).1
            have hold := hin.victPos (kv.1, vs) hm'
            have hold1 : pos kv.1 < n := by simpa using hold.1
            have hold2 : ∀ v ∈ vs, pos kv.1 < pos v ∧ pos v < n := by
              simpa using hold.2
            have hk1ne : kv.1 ≠ r.tx_hash := fun he => by
              rw [he] at hold1
              omega
            rcases hshape with ⟨he1, _⟩ | ⟨_, h2⟩
            · exact absurd he1 hk1ne
            · refine ⟨by omega, ?_⟩
              intro v hv
              rw [h2] at hv
              rcases List.mem_append.mp hv with hv1 | hv2
              · have := hold2 v hv1
                exact ⟨this.1, by omega⟩
              · have hveq : v = r.tx_hash := by simpa using hv2
                rw [hveq]
                exact ⟨by omega, by omega⟩
        · intro kv hkv
          rcases mem_upsertSandwichSenders hin.ndSand hkv with
            ⟨_, he⟩ | ⟨sw, hsw, he⟩ | ⟨hm, _⟩
          · have h2 : kv.2 = PossibleSandwich.mk r.eoa_address [prev]
              r.tx_hash r.to_address [vs0] := congrArg Prod.snd he
            rw [h2]
            refine ⟨by simp, ?_⟩
            rw [wfC]
            simp only [List.headD_nil]
            refine ⟨by omega, ?_, by rw [wfC]⟩
            intro v hv
            have := hvb2 v hv
            exact ⟨this.1, by omega⟩
          · have hswmem : (r.eoa_address, sw) ∈ st.possible_sandwiches :=
              alookup_mem hsw
            have hswwf := hin.sandWf _ hswmem
            have hswcoup := hin.sandCoup _ hswmem
            simp only at hswcoup hswwf
            rw [hdup] at hswcoup
            injection hswcoup with hprev_back
            have h2 : kv.2 = { sw with
                possible_frontruns := sw.possible_frontruns ++ [prev]
                possible_backrun := r.tx_hash
                victims := sw.victims ++ [vs0] } := congrArg Prod.snd he
            rw [h2]
            refine ⟨by simp, ?_⟩
            show wfC pos (sw.possible_frontruns ++ [prev])
              (sw.victims ++ [vs0]) r.tx_hash
            exact wfC_snoc (hprev_back ▸ hswwf.2)
              (fun v hv => ⟨(hvb2 v hv).1, by have := (hvb2 v hv).2; omega⟩)
              (by omega)
          · exact hin.sandWf kv hm
        · intro kv hkv
          rcases mem_upsertSandwichSenders hin.ndSand hkv with
            ⟨_, he⟩ | ⟨sw, hsw, he⟩ | ⟨hm, hne⟩
          · have h1 : kv.1 = r.eoa_address := congrArg Prod.fst he
            have h2 : kv.2.possible_backrun = r.tx_hash := by
              rw [congrArg Prod.snd he]
            rw [h1, h2, alookup_ainsert_self]
          · have h1 : kv.1 = r.eoa_address := congrArg Prod.fst he
            have h2 : kv.2.possible_backrun = r.tx_hash := by
              rw [congrArg Prod.snd he]
            rw [h1, h2, alookup_ainsert_self]
          · rw [alookup_ainsert_ne _ _ _ _ hne]
            exact hin.sandCoup kv hm

/-- The sender-scan invariant survives a fold over roots with strictly
increasing positions. -/
theorem scanSendersFold_inv (pos sender : Nat → Nat) :
    ∀ (rs : List Root) (st : SenderScanState) (n : Nat),
      InvSenders pos sender st n →
      (∀ r ∈ rs, sender r.tx_hash = r.eoa_address) →
      (∀ r ∈ rs, n ≤ pos r.tx_hash) →
      rs.Pairwise (fun r1 r2 => pos r1.tx_hash < pos r2.tx_hash) →
      ∃ m, InvSenders pos sender (rs.foldl stepSenders st) m := by
  intro rs
  induction rs with
  | nil =>
      intro st n hin _ _ _
      exact ⟨n, hin⟩
  | cons r rs ih =>
      intro st n hin hsend hge hpair
      rw [List.foldl_cons]
      rw [List.pairwise_cons] at hpair
      have hstep := stepSenders_inv pos sender st r n hin
        (hsend r (List.mem_cons_self r rs)) (hge r (List.mem_cons_self r rs))
      exact ih (stepSenders st r) (pos r.tx_hash + 1) hstep
        (fun r' h => hsend r' (List.mem_cons_of_mem r h))
        (fun r' h => by have := hpair.1 r' h; omega)
        hpair.2

/-- Every candidate produced by the duplicate-sender scan is a non-empty
well-formed chain. -/
theorem scanSenders_wf (t : Tree) (pos sender : Nat → Nat)
    (hsend : ∀ r ∈ t.tx_roots, sender r.tx_hash = r.eoa_address)
    (hsort : t.tx_roots.Pairwise
      (fun r1 r2 => pos r1.tx_hash < pos r2.tx_hash)) :
    ∀ ps ∈ get_possible_sandwich_duplicate_senders t,
      ps.possible_frontruns ≠ [] ∧
        wfC pos ps.possible_frontruns ps.victims ps.possible_backrun := by
  intro ps hps
  rw [get_possible_sandwich_duplicate_senders] at hps
  obtain ⟨kv, hkv, heq⟩ := List.mem_map.mp hps
  have hinit : InvSenders pos sender
      { duplicate_senders := []
        possible_victims := []
        possible_sandwiches := [] } 0 := by
    refine ⟨by simp, by simp, ?_, ?_, ?_, ?_, ?_, ?_⟩ <;>
      intro kv hkv <;> exact absurd hkv (List.not_mem_nil kv)
  obtain ⟨m, hinv⟩ := scanSendersFold_inv pos sender t.tx_roots _ 0 hinit
    hsend (fun _ _ => Nat.zero_le _) hsort
  exact heq ▸ hinv.sandWf kv hkv

/-- Invariant of the duplicate-contract scan state: as for the sender scan,
keyed by callee contract; the map value stores the latest hash together with
the remembered first signer. -/
structure InvContracts (pos toAddr : Nat → Nat) (st : ContractScanState)
    (n : Nat) : Prop where
  ndDup : (st.duplicate_mev_contracts.map Prod.fst).Nodup
  ndSand : (st.possible_sandwiches.map Prod.fst).Nodup
  dupPos : ∀ kv ∈ st.duplicate_mev_contracts, pos kv.2.1 < n
  dupToAddr : ∀ kv ∈ st.duplicate_mev_contracts, toAddr kv.2.1 = kv.1
  dupVict : ∀ kv ∈ st.duplicate_mev_contracts,
    (alookup st.possible_victims kv.2.1).isSome = true
  victPos : ∀ kv ∈ st.possible_victims,
    pos kv.1 < n ∧ ∀ v ∈ kv.2, pos kv.1 < pos v ∧ pos v < n
  sandWf : ∀ kv ∈ st.possible_sandwiches,
    kv.2.possible_frontruns ≠ [] ∧
      wfC pos kv.2.possible_frontruns kv.2.victims kv.2.possible_backrun
  sandCoup : ∀ kv ∈ st.possible_sandwiches,
    ∃ e, alookup st.duplicate_mev_contracts kv.1 =
      some (kv.2.possible_backrun, e)

/-- The contract-scan invariant is monotone in the bound. -/
theorem invContracts_mono {pos toAddr : Nat → Nat} {st : ContractScanState}
    {n m : Nat} (h : InvContracts pos toAddr st n) (hnm : n ≤ m) :
    InvContracts pos toAddr st m where
  ndDup := h.ndDup
  ndSand := h.ndSand
  dupPos := fun kv hm => lt_of_lt_of_le (h.dupPos kv hm) hnm
  dupToAddr := h.dupToAddr
  dupVict := h.dupVict
  victPos := fun kv hm =>
    ⟨lt_of_lt_of_le ((h.victPos kv hm).1) hnm,
     fun v hv => ⟨((h.victPos kv hm).2 v hv).1,
       lt_of_lt_of_le ((h.victPos kv hm).2 v hv).2 hnm⟩⟩
  sandWf := h.sandWf
  sandCoup := h.sandCoup

/-- Members of the sandwich upsert (contract scan). -/
theorem mem_upsertSandwichContracts {sands : List (Nat × PossibleSandwich)}
    {r : Root} {prev e0 : Nat} {fv : List Nat} {kv : Nat × PossibleSandwich}
    (hnd : (sands.map Prod.fst).Nodup)
    (h : kv ∈ upsertSandwichContracts sands r prev e0 fv) :
    (alookup sands r.to_address = none ∧
      kv = (r.to_address,
        { eoa := e0
          possible_frontruns := [prev]
          possible_backrun := r.tx_hash
          mev_executor_contract := r.to_address
          victims := [fv] })) ∨
    (∃ sw, alookup sands r.to_address = some sw ∧
      kv = (r.to_address,
        { sw with
          possible_frontruns := sw.possible_frontruns ++ [prev]
          possible_backrun := r.tx_hash
          victims := sw.victims ++ [fv] })) ∨
    (kv ∈ sands ∧ kv.1 ≠ r.to_address) := by
  rw [upsertSandwichContracts] at h
  cases halk : alookup sands r.to_address with
  | none =>
      rw [halk] at h
      rcases mem_ainsert_strong hnd h with he | hm
      · exact Or.inl ⟨rfl, he⟩
      · exact Or.inr (Or.inr hm)
  | some sw =>
      rw [halk] at h
      rcases mem_ainsert_strong hnd h with he | hm
      · exact Or.inr (Or.inl ⟨sw, rfl, he⟩)
      · exact Or.inr (Or.inr hm)

/-- The sandwich upsert (contract scan) preserves key distinctness. -/
theorem nodup_keys_upsertSandwichContracts
    {sands : List (Nat × PossibleSandwich)} {r : Root} {prev e0 : Nat}
    {fv : List Nat} (hnd : (sands.map Prod.fst).Nodup) :
    ((upsertSandwichContracts sands r prev e0 fv).map Prod.fst).Nodup := by
  rw [upsertSandwichContracts]
  cases alookup sands r.to_address with
  | none => exact nodup_keys_ainsert hnd
  | some sw => exact nodup_keys_ainsert hnd

/-- One step of the contract scan preserves the invariant. -/
theorem stepContracts_inv (pos toAddr : Nat → Nat) (st : ContractScanState)
    (r : Root) (n : Nat) (hin : InvContracts pos toAddr st n)
    (hto : toAddr r.tx_hash = r.to_address) (hn : n ≤ pos r.tx_hash) :
    InvContracts pos toAddr (stepContracts st r) (pos r.tx_hash + 1) := by
  rw [stepContracts]
  by_cases hrev : r.is_revert = true
  · rw [if_pos hrev]
    exact invContracts_mono hin (by omega)
  · rw [if_neg hrev]
    cases hdup : alookup st.duplicate_mev_contracts r.to_address with
    | none =>
        simp only [hdup]
        refine ⟨nodup_keys_ainsert hin.ndDup, hin.ndSand, ?_, ?_, ?_, ?_,
          hin.sandWf, ?_⟩
        · intro kv hkv
          rcases mem_ainsert hkv with he | hm
          · have h2 : kv.2.1 = r.tx_hash := by
              rw [congrArg Prod.snd he]
            rw [h2]
            omega
          · have := hin.dupPos kv hm
            omega
        · intro kv hkv
          rcases mem_ainsert_strong hin.ndDup hkv with he | ⟨hm, _⟩
          · have h1 : kv.1 = r.to_address := congrArg Prod.fst he
            have h2 : kv.2.1 = r.tx_hash := by
              rw [congrArg Prod.snd he]
            rw [h1, h2]
            exact hto
          · exact hin.dupToAddr kv hm
        · intro kv hkv
          rcases mem_ainsert_strong hin.ndDup hkv with he | ⟨hm, hne⟩
          · have h2 : kv.2.1 = r.tx_hash := by
              rw [congrArg Prod.snd he]
            rw [h2, alookup_appendVictim, alookup_ainsert_self]
            simp
          · have hold := hin.dupVict kv hm
            have hpos := hin.dupPos kv hm
            have hnecur : kv.2.1 ≠ r.tx_hash := fun he => by
              rw [he] at hpos
              omega
            rw [alookup_appendVictim, alookup_ainsert_ne _ _ _ _ hnecur]
            obtain ⟨vs, hvs⟩ := Option.isSome_iff_exists.mp hold
            rw [hvs]
            simp
        · intro kv hkv
          obtain ⟨vs, hvsmem, hshape⟩ := mem_appendVictim hkv
          rcases mem_ainsert hvsmem with he | hm
          · have hk1 : kv.1 = r.tx_hash := congrArg Prod.fst he
            have hvs : vs = [] := congrArg Prod.snd he
            rcases hshape with ⟨_, h2⟩ | ⟨hne, _⟩
            · refine ⟨by rw [hk1]; omega, ?_⟩
              intro v hv
              rw [h2, hvs] at hv
              exact absurd hv (List.not_mem_nil v)
            · exact absurd hk1 hne
          · have hold := hin.victPos (kv.1, vs) hm
            have hold1 : pos kv.1 < n := by simpa using hold.1
            have hold2 : ∀ v ∈ vs, pos kv.1 < pos v ∧ pos v < n := by
              simpa using hold.2
            have hk1ne : kv.1 ≠ r.tx_hash := fun he => by
              rw [he] at hold1
              omega
            rcases hshape with ⟨he1, _⟩ | ⟨_, h2⟩
            · exact absurd he1 hk1ne
            · refine ⟨by omega, ?_⟩
              intro v hv
              rw [h2] at hv
              rcases List.mem_append.mp hv with hv1 | hv2
              · have := hold2 v hv1
                exact ⟨this.1, by omega⟩
              · have hveq : v = r.tx_hash := by simpa using hv2
                rw [hveq]
                exact ⟨by omega, by omega⟩
        · intro kv hkv
          obtain ⟨e, hcoup⟩ := hin.sandCoup kv hkv
          have hk1ne : kv.1 ≠ r.to_address := fun he => by
            rw [he, hdup] at hcoup
            exact Option.noConfusion hcoup
          rw [alookup_ainsert_ne _ _ _ _ hk1ne]
          exact ⟨e, hcoup⟩
    | some pe =>
        have hprevmem : (r.to_address, pe) ∈ st.duplicate_mev_contracts :=
          alookup_mem hdup
        have hprevto : toAddr pe.1 = r.to_address := by
          simpa using hin.dupToAddr _ hprevmem
        have hprevpos : pos pe.1 < n := by
          simpa using hin.dupPos _ hprevmem
        obtain ⟨vs0, hvs0⟩ :=
          Option.isSome_iff_exists.mp (by simpa using hin.dupVict _ hprevmem)
        have hvs0mem : (pe.1, vs0) ∈ st.possible_victims := alookup_mem hvs0
        have hvb2 : ∀ v ∈ vs0, pos pe.1 < pos v ∧ pos v < n := by
          simpa using (hin.victPos _ hvs0mem).2
        simp only [hdup, hvs0]
        refine ⟨nodup_keys_ainsert hin.ndDup,
          nodup_keys_upsertSandwichContracts hin.ndSand, ?_, ?_, ?_, ?_, ?_,
          ?_⟩
        · intro kv hkv
          rcases mem_ainsert hkv with he | hm
          · have h2 : kv.2.1 = r.tx_hash := by
              rw [congrArg Prod.snd he]
            rw [h2]
            omega
          · have := hin.dupPos kv hm
            omega
        · intro kv hkv
          rcases mem_ainsert_strong hin.ndDup hkv with he | ⟨hm, _⟩
          · have h1 : kv.1 = r.to_address := congrArg Prod.fst he
            have h2 : kv.2.1 = r.tx_hash := by
              rw [congrArg Prod.snd he]
            rw [h1, h2]
            exact hto
          · exact hin.dupToAddr kv hm
        · intro kv hkv
          rcases mem_ainsert_strong hin.ndDup hkv with he | ⟨hm, hne⟩
          · have h2 : kv.2.1 = r.tx_hash := by
              rw [congrArg Prod.snd he]
            rw [h2, alookup_appendVictim, alookup_ainsert_self]
            simp
          · have hold := hin.dupVict kv hm
            have hpos := hin.dupPos kv hm
            have hnecur : kv.2.1 ≠ r.tx_hash := fun he => by
              rw [he] at hpos
              omega
            have hneprev : kv.2.1 ≠ pe.1 := fun he => by
              apply hne
              rw [← hin.dupToAddr kv hm, he, hprevto]
            rw [alookup_appendVictim, alookup_ainsert_ne _ _ _ _ hnecur,
              alookup_aremove_ne _ _ _ hneprev]
            obtain ⟨vs, hvs⟩ := Option.isSome_iff_exists.mp hold
            rw [hvs]
            simp
        · intro kv hkv
          obtain ⟨vs, hvsmem, hshape⟩ := mem_appendVictim hkv
          rcases mem_ainsert hvsmem with he | hm
          · have hk1 : kv.1 = r.tx_hash := congrArg Prod.fst he
            have hvs : vs = [] := congrArg Prod.snd he
            rcases hshape with ⟨_, h2⟩ | ⟨hne, _⟩
            · refine ⟨by rw [hk1]; omega, ?_⟩
              intro v hv
              rw [h2, hvs] at hv
              exact absurd hv (List.not_mem_nil v)
            · exact absurd hk1 hne
          · have hm' := (mem_aremove hm).1
            have hold := hin.victPos (kv.1, vs) hm'
            have hold1 : pos kv.1 < n := by simpa using hold.1
            have hold2 : ∀ v ∈ vs, pos kv.1 < pos v ∧ pos v < n := by
              simpa using hold.2
            have hk1ne : kv.1 ≠ r.tx_hash := fun he => by
              rw [he] at hold1
              omega
            rcases hshape with ⟨he1, _⟩ | ⟨_, h2⟩
            · exact absurd he1 hk1ne
            · refine ⟨by omega, ?_⟩
              intro v hv
              rw [h2] at hv
              rcases List.mem_append.mp hv with hv1 | hv2
              · have := hold2 v hv1
                exact ⟨this.1, by omega⟩
              · have hveq : v = r.tx_hash := by simpa using hv2
                rw [hveq]
                exact ⟨by omega, by omega⟩
        · intro kv hkv
          rcases mem_upsertSandwichContracts hin.ndSand hkv with
            ⟨_, he⟩ | ⟨sw, hsw, he⟩ | ⟨hm, _⟩
          · have h2 : kv.2 = PossibleSandwich.mk pe.2 [pe.1]
              r.tx_hash r.to_address [vs0] := congrArg Prod.snd he
            rw [h2]
            refine ⟨by simp, ?_⟩
            rw [wfC]
            simp only [List.headD_nil]
            refine ⟨by omega, ?_, by rw [wfC]⟩
            intro v hv
            have := hvb2 v hv
            exact ⟨this.1, by omega⟩
          · have hswmem : (r.to_address, sw) ∈ st.possible_sandwiches :=
              alookup_mem hsw
            have hswwf := hin.sandWf _ hswmem
            obtain ⟨e, hswcoup⟩ := hin.sandCoup _ hswmem
            simp only at hswcoup hswwf
            rw [hdup] at hswcoup
            injection hswcoup with hpe
            have hprev_back : sw.possible_backrun = pe.1 := by
              rw [hpe]
            have h2 : kv.2 = { sw with
                possible_frontruns := sw.possible_frontruns ++ [pe.1]
                possible_backrun := r.tx_hash
                victims := sw.victims ++ [vs0] } := congrArg Prod.snd he
            rw [h2]
            refine ⟨by simp, ?_⟩
            show wfC pos (sw.possible_frontruns ++ [pe.1])
              (sw.victims ++ [vs0]) r.tx_hash
            exact wfC_snoc (hprev_back ▸ hswwf.2)
              (fun v hv => ⟨(hvb2 v hv).1, by have := (hvb2 v hv).2; omega⟩)
              (by omega)
          · exact hin.sandWf kv hm
        · intro kv hkv
          rcases mem_upsertSandwichContracts hin.ndSand hkv with
            ⟨_, he⟩ | ⟨sw, hsw, he⟩ | ⟨hm, hne⟩
          · have h1 : kv.1 = r.to_address := congrArg Prod.fst he
            have h2 : kv.2.possible_backrun = r.tx_hash := by
              rw [congrArg Prod.snd he]
            rw [h1, h2, alookup_ainsert_self]
            exact ⟨pe.2, rfl⟩
          · have h1 : kv.1 = r.to_address := congrArg Prod.fst he
            have h2 : kv.2.possible_backrun = r.tx_hash := by
              rw [congrArg Prod.snd he]
            rw [h1, h2, alookup_ainsert_self]
            exact ⟨pe.2, rfl⟩
          · rw [alookup_ainsert_ne _ _ _ _ hne]
            exact hin.sandCoup kv hm

/-- The contract-scan invariant survives a fold over roots with strictly
increasing positions. -/
theorem scanContractsFold_inv (pos toAddr : Nat → Nat) :
    ∀ (rs : List Root) (st : ContractScanState) (n : Nat),
      InvContracts pos toAddr st n →
      (∀ r ∈ rs, toAddr r.tx_hash = r.to_address) →
      (∀ r ∈ rs, n ≤ pos r.tx_hash) →
      rs.Pairwise (fun r1 r2 => pos r1.tx_hash < pos r2.tx_hash) →
      ∃ m, InvContracts pos toAddr (rs.foldl stepContracts st) m := by
  intro rs
  induction rs with
  | nil =>
      intro st n hin _ _ _
      exact ⟨n, hin⟩
  | cons r rs ih =>
      intro st n hin hto hge hpair
      rw [List.foldl_cons]
      rw [List.pairwise_cons] at hpair
      have hstep := stepContracts_inv pos toAddr st r n hin
        (hto r (List.mem_cons_self r rs)) (hge r (List.mem_cons_self r rs))
      exact ih (stepContracts st r) (pos r.tx_hash + 1) hstep
        (fun r' h => hto r' (List.mem_cons_of_mem r h))
        (fun r' h => by have := hpair.1 r' h; omega)
        hpair.2

/-- Every candidate produced by the duplicate-contract scan is a non-empty
well-formed chain. -/
theorem scanContracts_wf (t : Tree) (pos toAddr : Nat → Nat)
    (hto : ∀ r ∈ t.tx_roots, toAddr r.tx_hash = r.to_address)
    (hsort : t.tx_roots.Pairwise
      (fun r1 r2 => pos r1.tx_hash < pos r2.tx_hash)) :
    ∀ ps ∈ get_possible_sandwich_duplicate_contracts t,
      ps.possible_frontruns ≠ [] ∧
        wfC pos ps.possible_frontruns ps.victims ps.possible_backrun := by
  intro ps hps
  rw [get_possible_sandwich_duplicate_contracts] at hps
  obtain ⟨kv, hkv, heq⟩ := List.mem_map.mp hps
  have hinit : InvContracts pos toAddr
      { duplicate_mev_contracts := []
        possible_victims := []
        possible_sandwiches := [] } 0 := by
    refine ⟨by simp, by simp, ?_, ?_, ?_, ?_, ?_, ?_⟩ <;>
      intro kv hkv <;> exact absurd hkv (List.not_mem_nil kv)
  obtain ⟨m, hinv⟩ := scanContractsFold_inv pos toAddr t.tx_roots _ 0 hinit
    hto (fun _ _ => Nat.zero_le _) hsort
  exact heq ▸ hinv.sandWf kv hkv

/-- A list with a known last element is its `dropLast` followed by that
element. -/
theorem dropLast_append_getLast?_eq {α : Type} :
    ∀ {l : List α} {x : α}, l.getLast? = some x → l.dropLast ++ [x] = l := by
  intro l
  induction l with
  | nil =>
      intro x h
      exact absurd h Option.noConfusion
  | cons a l ih =>
      intro x h
      cases l with
      | nil =>
          have : a = x := by simpa using h
          rw [this]
          rfl
      | cons b l' =>
          have h' : (b :: l').getLast? = some x := by
            rw [← h]
            rfl
          have := ih h'
          simp only [List.dropLast_cons₂, List.cons_append, this]

/-- The emitted bundle of the `calculate_sandwich` recursion inherits chain
well-formedness: its frontrun list is non-empty and, with its victim hash
groups and recorded backrun, forms a well-formed chain whenever the input
candidate does. -/
theorem calcFuel_wf (pos : Nat → Nat) :
    ∀ (fuel quote : Nat) (md : MetadataCombined) (idx eoa con : Nat)
      (frs : List Nat) (br : Nat) (frg : List GasDetails) (brg : GasDetails)
      (sa : List (List Actions)) (vt : List (List Nat))
      (va : List (List (List Actions))) (vg : List (List GasDetails))
      (bp : BundleHeader × Sandwich),
      calcSandwichFuel fuel quote md idx eoa con frs br frg brg sa vt va vg =
        some bp →
      frs ≠ [] → wfC pos frs vt br →
      bp.2.frontrun_tx_hash ≠ [] ∧
        wfC pos bp.2.frontrun_tx_hash bp.2.victim_swaps_tx_hashes
          bp.2.backrun_tx_hash := by
  intro fuel
  induction fuel with
  | zero =>
      intro quote md idx eoa con frs br frg brg sa vt va vg bp h
      exact absurd h (by rw [calcSandwichFuel]; exact Option.noConfusion)
  | succ n ih =>
      intro quote md idx eoa con frs br frg brg sa vt va vg bp h hne hwf
      rw [calcSandwichFuel] at h
      cases hlast : sa.getLast? with
      | none =>
          simp only [hlast] at h
          exact Option.noConfusion h
      | some last =>
          simp only [hlast] at h
          by_cases hov :
            has_pool_overlap (List.map extractSwaps sa.dropLast)
              (extractSwaps last) va = true
          · rw [if_pos hov] at h
            cases husd : usd_delta_by_address quote idx
                (calculate_token_deltas sa) md false with
            | none =>
                simp only [husd] at h
                exact Option.noConfusion h
            | some du =>
                simp only [husd] at h
                injection h with h'
                rw [← h']
                exact ⟨hne, hwf⟩
          · rw [if_neg hov] at h
            by_cases hlen : frs.length > 1
            · rw [if_pos hlen] at h
              cases h1 : vg.getLast? with
              | none =>
                  simp only [h1] at h
                  exact Option.noConfusion h
              | some g1 =>
                cases h2 : va.getLast? with
                | none =>
                    simp only [h1, h2] at h
                    exact Option.noConfusion h
                | some g2 =>
                  cases h3 : vt.getLast? with
                  | none =>
                      simp only [h1, h2, h3] at h
                      exact Option.noConfusion h
                  | some g3 =>
                    cases h4 : frs.getLast? with
                    | none =>
                        simp only [h1, h2, h3, h4] at h
                        exact Option.noConfusion h
                    | some back_run_tx =>
                      cases h5 : frg.getLast? with
                      | none =>
                          simp only [h1, h2, h3, h4, h5] at h
                          exact Option.noConfusion h
                      | some g =>
                          simp only [h1, h2, h3, h4, h5] at h
                          have hfr := dropLast_append_getLast?_eq h4
                          have hvt := dropLast_append_getLast?_eq h3
                          have hlen_eq : vt.length = frs.length :=
                            wfC_length hwf
                          have hdl_len : frs.dropLast.length =
                              vt.dropLast.length := by
                            rw [List.length_dropLast, List.length_dropLast,
                              hlen_eq]
                          have hwf' : wfC pos frs.dropLast vt.dropLast
                              back_run_tx :=
                            @wfC_unsnoc pos frs.dropLast vt.dropLast
                              back_run_tx g3 br
                              (by rw [hfr, hvt]; exact hwf) hdl_len
                          have hdlne : frs.dropLast ≠ [] := by
                            intro hnil
                            have := congrArg List.length hnil
                            rw [List.length_dropLast] at this
                            simp at this
                            omega
                          exact ih quote md idx eoa con frs.dropLast
                            back_run_tx frg.dropLast g sa.dropLast
                            vt.dropLast va.dropLast vg.dropLast bp h hdlne
                            hwf'
            · rw [if_neg hlen] at h
              exact absurd h Option.noConfusion

/-- Dissection of an emitting per-candidate run: if the closure emits, the
backrun root and gas resolved, and the emitted bundle comes from
`calculate_sandwich` at exactly the collected arguments. -/
theorem processCandidate_emits {quote : Nat} {t : Tree}
    {metadata : MetadataCombined} {c : PossibleSandwich}
    {b : BundleHeader × Sandwich}
    (hp : processCandidate quote t metadata c = some (some b)) :
    ∃ back_root bg, t.get_root c.possible_backrun = some back_root ∧
      t.get_gas_details c.possible_backrun = some bg ∧
      calculate_sandwich quote metadata back_root.position c.eoa
        c.mev_executor_contract c.possible_frontruns c.possible_backrun
        (c.possible_frontruns.filterMap (fun pf => t.get_gas_details pf)) bg
        (((c.possible_frontruns ++ [c.possible_backrun]).map
          (fun tx => t.collect searchFn tx)).filter (fun f => !f.isEmpty))
        c.victims
        (c.victims.map (fun vs => vs.map (fun v => t.collect searchFn v)))
        (c.victims.map (fun vs => vs.filterMap
          (fun v => t.get_gas_details v))) = some b := by
  rw [processCandidate] at hp
  by_cases hempty :
    ((c.victims.map (fun vs => vs.map (fun v => t.collect searchFn v))).any
      (fun inner => inner.any (fun s => s.isEmpty))) = true
  · rw [if_pos hempty] at hp
    injection hp with hp'
    exact absurd hp' Option.noConfusion
  · rw [if_neg hempty] at hp
    cases hscan : victimRevertScan t c.mev_executor_contract
        c.victims.flatten with
    | none =>
        rw [hscan] at hp
        exact absurd hp Option.noConfusion
    | some flag =>
        rw [hscan] at hp
        cases flag with
        | true =>
            injection hp with hp'
            exact absurd hp' Option.noConfusion
        | false =>
            cases hroot : t.get_root c.possible_backrun with
            | none =>
                rw [hroot] at hp
                exact absurd hp Option.noConfusion
            | some back_root =>
                rw [hroot] at hp
                cases hgas : t.get_gas_details c.possible_backrun with
                | none =>
                    rw [hgas] at hp
                    injection hp with hp'
                    exact absurd hp' Option.noConfusion
                | some bg =>
                    rw [hgas] at hp
                    injection hp with hp'
                    exact ⟨back_root, bg, rfl, rfl, hp'⟩

/-- Membership is invariant under the candidate-set deduplication. -/
theorem mem_dedupList {x : PossibleSandwich} :
    ∀ {l : List PossibleSandwich}, x ∈ dedupList l ↔ x ∈ l := by
  intro l
  induction l with
  | nil => simp [dedupList]
  | cons a l ih =>
      rw [dedupList]
      by_cases ha : a ∈ l
      · rw [if_pos ha, ih]
        constructor
        · exact fun h => List.mem_cons_of_mem a h
        · intro h
          rcases List.mem_cons.mp h with he | hm
          · exact he ▸ ha
          · exact hm
      · rw [if_neg ha]
        simp [ih]

/-- A candidate of `get_possible_sandwich` comes from one of the two
scans. -/
theorem mem_get_possible_sandwich {t : Tree} {c : PossibleSandwich}
    (hc : c ∈ get_possible_sandwich t) :
    c ∈ get_possible_sandwich_duplicate_senders t ∨
      c ∈ get_possible_sandwich_duplicate_contracts t := by
  rw [get_possible_sandwich] at hc
  by_cases h3 : t.tx_roots.length < 3
  · rw [if_pos h3] at hc
    exact absurd hc (List.not_mem_nil c)
  · rw [if_neg h3] at hc
    exact List.mem_append.mp (mem_dedupList.mp hc)

/-- C4 (amended): for every bundle emitted by `process_tree` on a block with
strictly increasing positions, `frontrun_tx_hash` is non-empty and the
frontruns, victim groups and backrun form a well-formed chain: the frontruns
and the backrun are strictly increasing by position and the i-th victim
group lies strictly between the i-th frontrun and the next leg; hence the
first frontrun precedes every victim and every victim precedes the backrun.
In a Big Mac bundle a later frontrun does not precede the victims of earlier
legs. -/
theorem emitted_bundle_ordering (quote : Nat) (t : Tree)
    (metadata : MetadataCombined) (pos sender toAddr : Nat → Nat)
    (hsend : ∀ r ∈ t.tx_roots, sender r.tx_hash = r.eoa_address)
    (hto : ∀ r ∈ t.tx_roots, toAddr r.tx_hash = r.to_address)
    (hsort : t.tx_roots.Pairwise
      (fun r1 r2 => pos r1.tx_hash < pos r2.tx_hash))
    (out : List (BundleHeader × Sandwich)) (b : BundleHeader × Sandwich)
    (hrun : process_tree quote t metadata = some out) (hb : b ∈ out) :
    b.2.frontrun_tx_hash ≠ [] ∧
    wfC pos b.2.frontrun_tx_hash b.2.victim_swaps_tx_hashes
      b.2.backrun_tx_hash ∧
    ∀ v ∈ b.2.victim_swaps_tx_hashes.flatten,
      pos (b.2.frontrun_tx_hash.headD 0) < pos v ∧
        pos v < pos b.2.backrun_tx_hash := by
  obtain ⟨c, hc, hp⟩ := processTreeOn_mem quote t metadata
    (get_possible_sandwich t) out b hrun hb
  have hcwf : c.possible_frontruns ≠ [] ∧
      wfC pos c.possible_frontruns c.victims c.possible_backrun := by
    rcases mem_get_possible_sandwich hc with h1 | h2
    · exact scanSenders_wf t pos sender hsend hsort c h1
    · exact scanContracts_wf t pos toAddr hto hsort c h2
  obtain ⟨back_root, bg, _, _, hcalc⟩ := processCandidate_emits hp
  rw [calculate_sandwich] at hcalc
  have hbwf := calcFuel_wf pos _ _ _ _ _ _ _ _ _ _ _ _ _ _ _ hcalc hcwf.1
    hcwf.2
  exact ⟨hbwf.1, hbwf.2, wfC_victims_bounds hbwf.2 hbwf.1⟩

set_option maxHeartbeats 2000000 in
/-- Counterexample to C4 as stated: on the Big Mac block `T4` the single
emitted bundle has frontruns 300 and 302, victim groups [[301], [303]] and
backrun 304, and frontrun 302 (position 2) does not precede victim 301
(position 1), so not every frontrun precedes every victim. -/
theorem big_mac_frontrun_after_victim :
    (process_tree 40 T4 M0).map
      (List.map (fun b =>
        (b.2.frontrun_tx_hash, b.2.victim_swaps_tx_hashes,
          b.2.backrun_tx_hash))) =
      some [([300, 302], [[301], [303]], 304)] ∧
    ¬(∀ f ∈ ([300, 302] : List Nat),
        ∀ v ∈ ([[301], [303]] : List (List Nat)).flatten,
          T4.posOf f < T4.posOf v) :=
  ⟨by decide, by decide⟩

set_option maxHeartbeats 4000000 in
/-- Witness for the amended C4 on the Big Mac block `T4`. -/
theorem emitted_bundle_ordering_witness :
    (firstBundle (process_tree 40 T4 M0)).2.frontrun_tx_hash ≠ [] ∧
    wfC (fun h => h - 300)
      (firstBundle (process_tree 40 T4 M0)).2.frontrun_tx_hash
      (firstBundle (process_tree 40 T4 M0)).2.victim_swaps_tx_hashes
      (firstBundle (process_tree 40 T4 M0)).2.backrun_tx_hash ∧
    ∀ v ∈ (firstBundle
        (process_tree 40 T4 M0)).2.victim_swaps_tx_hashes.flatten,
      (fun h => h - 300)
          ((firstBundle (process_tree 40 T4 M0)).2.frontrun_tx_hash.headD 0) <
        (fun h => h - 300) v ∧
      (fun h => h - 300) v <
        (fun h => h - 300)
          (firstBundle (process_tree 40 T4 M0)).2.backrun_tx_hash := by
  apply emitted_bundle_ordering 40 T4 M0 (fun h => h - 300)
    (fun h => if h == 301 then 3 else if h == 303 then 4 else 1)
    (fun h => if h == 301 then 23 else if h == 303 then 24 else 21)
    (by decide) (by decide) (by decide)
    ((process_tree 40 T4 M0).getD []) (firstBundle (process_tree 40 T4 M0))
  · have hsome : (process_tree 40 T4 M0).isSome = true := by decide
    exact option_eq_some_getD hsome []
  · have hlen : ((process_tree 40 T4 M0).getD []).length = 1 := by decide
    rw [firstBundle]
    cases hl : (process_tree 40 T4 M0).getD [] with
    | nil => rw [hl] at hlen; exact absurd hlen (by simp)
    | cons b bs => exact List.mem_cons_self b bs

/-- One sender-scan step preserves the per-candidate equality of victim
group count and frontrun count, with no side conditions. -/
theorem stepSenders_lengths (st : SenderScanState) (r : Root)
    (hst : ∀ kv ∈ st.possible_sandwiches,
      kv.2.victims.length = kv.2.possible_frontruns.length) :
    ∀ kv ∈ (stepSenders st r).possible_sandwiches,
      kv.2.victims.length = kv.2.possible_frontruns.length := by
  intro kv hkv
  rw [stepSenders] at hkv
  by_cases hrev : r.is_revert = true
  · rw [if_pos hrev] at hkv
    exact hst kv hkv
  · rw [if_neg hrev] at hkv
    cases hdup : alookup st.duplicate_senders r.eoa_address with
    | none =>
        simp only [hdup] at hkv
        exact hst kv hkv
    | some prev =>
        simp only [hdup] at hkv
        cases hvs : alookup st.possible_victims prev with
        | none =>
            simp only [hvs] at hkv
            exact hst kv hkv
        | some fv =>
            simp only [hvs] at hkv
            rw [upsertSandwichSenders] at hkv
            cases halk : alookup st.possible_sandwiches r.eoa_address with
            | none =>
                rw [halk] at hkv
                rcases mem_ainsert hkv with he | hm
                · have h2 := congrArg Prod.snd he
                  rw [h2]
                  rfl
                · exact hst kv hm
            | some sw =>
                rw [halk] at hkv
                rcases mem_ainsert hkv with he | hm
                · have h2 := congrArg Prod.snd he
                  rw [h2]
                  have := hst (r.eoa_address, sw) (alookup_mem halk)
                  simp only at this
                  simp [this]
                · exact hst kv hm

/-- One contract-scan step preserves the per-candidate count equality. -/
theorem stepContracts_lengths (st : ContractScanState) (r : Root)
    (hst : ∀ kv ∈ st.possible_sandwiches,
      kv.2.victims.length = kv.2.possible_frontruns.length) :
    ∀ kv ∈ (stepContracts st r).possible_sandwiches,
      kv.2.victims.length = kv.2.possible_frontruns.length := by
  intro kv hkv
  rw [stepContracts] at hkv
  by_cases hrev : r.is_revert = true
  · rw [if_pos hrev] at hkv
    exact hst kv hkv
  · rw [if_neg hrev] at hkv
    cases hdup : alookup st.duplicate_mev_contracts r.to_address with
    | none =>
        simp only [hdup] at hkv
        exact hst kv hkv
    | some pe =>
        simp only [hdup] at hkv
        cases hvs : alookup st.possible_victims pe.1 with
        | none =>
            simp only [hvs] at hkv
            exact hst kv hkv
        | some fv =>
            simp only [hvs] at hkv
            rw [upsertSandwichContracts] at hkv
            cases halk : alookup st.possible_sandwiches r.to_address with
            | none =>
                rw [halk] at hkv
                rcases mem_ainsert hkv with he | hm
                · have h2 := congrArg Prod.snd he
                  rw [h2]
                  rfl
                · exact hst kv hm
            | some sw =>
                rw [halk] at hkv
                rcases mem_ainsert hkv with he | hm
                · have h2 := congrArg Prod.snd he
                  rw [h2]
                  have := hst (r.to_address, sw) (alookup_mem halk)
                  simp only at this
                  simp [this]
                · exact hst kv hm

/-- The emitted bundle of the `calculate_sandwich` recursion has as many
victim hash groups as frontrun hashes whenever its input does; each peel-off
pops one of each. -/
theorem calcFuel_lengths :
    ∀ (fuel quote : Nat) (md : MetadataCombined) (idx eoa con : Nat)
      (frs : List Nat) (br : Nat) (frg : List GasDetails) (brg : GasDetails)
      (sa : List (List Actions)) (vt : List (List Nat))
      (va : List (List (List Actions))) (vg : List (List GasDetails))
      (bp : BundleHeader × Sandwich),
      vt.length = frs.length →
      calcSandwichFuel fuel quote md idx eoa con frs br frg brg sa vt va vg =
        some bp →
      bp.2.victim_swaps_tx_hashes.length = bp.2.frontrun_tx_hash.length := by
  intro fuel
  induction fuel with
  | zero =>
      intro quote md idx eoa con frs br frg brg sa vt va vg bp _ h
      exact absurd h (by rw [calcSandwichFuel]; exact Option.noConfusion)
  | succ n ih =>
      intro quote md idx eoa con frs br frg brg sa vt va vg bp hlen h
      rw [calcSandwichFuel] at h
      cases hlast : sa.getLast? with
      | none =>
          simp only [hlast] at h
          exact Option.noConfusion h
      | some last =>
          simp only [hlast] at h
          by_cases hov :
            has_pool_overlap (List.map extractSwaps sa.dropLast)
              (extractSwaps last) va = true
          · rw [if_pos hov] at h
            cases husd : usd_delta_by_address quote idx
                (calculate_token_deltas sa) md false with
            | none =>
                simp only [husd] at h
                exact Option.noConfusion h
            | some du =>
                simp only [husd] at h
                injection h with h'
                rw [← h']
                exact hlen
          · rw [if_neg hov] at h
            by_cases hgt : frs.length > 1
            · rw [if_pos hgt] at h
              cases h1 : vg.getLast? with
              | none =>
                  simp only [h1] at h
                  exact Option.noConfusion h
              | some g1 =>
                cases h2 : va.getLast? with
                | none =>
                    simp only [h1, h2] at h
                    exact Option.noConfusion h
                | some g2 =>
                  cases h3 : vt.getLast? with
                  | none =>
                      simp only [h1, h2, h3] at h
                      exact Option.noConfusion h
                  | some g3 =>
                    cases h4 : frs.getLast? with
                    | none =>
                        simp only [h1, h2, h3, h4] at h
                        exact Option.noConfusion h
                    | some back_run_tx =>
                      cases h5 : frg.getLast? with
                      | none =>
                          simp only [h1, h2, h3, h4, h5] at h
                          exact Option.noConfusion h
                      | some g =>
                          simp only [h1, h2, h3, h4, h5] at h
                          exact ih quote md idx eoa con frs.dropLast
                            back_run_tx frg.dropLast g sa.dropLast
                            vt.dropLast va.dropLast vg.dropLast bp
                            (by rw [List.length_dropLast,
                              List.length_dropLast, hlen]) h
            · rw [if_neg hgt] at h
              exact absurd h Option.noConfusion

/-- C8: every candidate produced by either scan has exactly as many victim
groups as frontruns, and the validator's peel-off steps preserve the
equality down to the emitted bundle. -/
theorem victims_frontruns_length_eq :
    (∀ (t : Tree), ∀ ps ∈ get_possible_sandwich_duplicate_senders t,
      ps.victims.length = ps.possible_frontruns.length) ∧
    (∀ (t : Tree), ∀ ps ∈ get_possible_sandwich_duplicate_contracts t,
      ps.victims.length = ps.possible_frontruns.length) ∧
    (∀ (quote : Nat) (md : MetadataCombined) (idx eoa con : Nat)
      (frs : List Nat) (br : Nat) (frg : List GasDetails) (brg : GasDetails)
      (sa : List (List Actions)) (vt : List (List Nat))
      (va : List (List (List Actions))) (vg : List (List GasDetails))
      (bp : BundleHeader × Sandwich),
      vt.length = frs.length →
      calculate_sandwich quote md idx eoa con frs br frg brg sa vt va vg =
        some bp →
      bp.2.victim_swaps_tx_hashes.length = bp.2.frontrun_tx_hash.length) := by
  have hfoldS : ∀ (rs : List Root) (st : SenderScanState),
      (∀ kv ∈ st.possible_sandwiches,
        kv.2.victims.length = kv.2.possible_frontruns.length) →
      ∀ kv ∈ (rs.foldl stepSenders st).possible_sandwiches,
        kv.2.victims.length = kv.2.possible_frontruns.length := by
    intro rs
    induction rs with
    | nil => intro st hst; exact hst
    | cons r rs ih =>
        intro st hst
        rw [List.foldl_cons]
        exact ih (stepSenders st r) (stepSenders_lengths st r hst)
  have hfoldC : ∀ (rs : List Root) (st : ContractScanState),
      (∀ kv ∈ st.possible_sandwiches,
        kv.2.victims.length = kv.2.possible_frontruns.length) →
      ∀ kv ∈ (rs.foldl stepContracts st).possible_sandwiches,
        kv.2.victims.length = kv.2.possible_frontruns.length := by
    intro rs
    induction rs with
    | nil => intro st hst; exact hst
    | cons r rs ih =>
        intro st hst
        rw [List.foldl_cons]
        exact ih (stepContracts st r) (stepContracts_lengths st r hst)
  refine ⟨?_, ?_, ?_⟩
  · intro t ps hps
    rw [get_possible_sandwich_duplicate_senders] at hps
    obtain ⟨kv, hkv, heq⟩ := List.mem_map.mp hps
    have := hfoldS t.tx_roots
      { duplicate_senders := []
        possible_victims := []
        possible_sandwiches := [] }
      (fun kv hkv => absurd hkv (List.not_mem_nil kv)) kv hkv
    exact heq ▸ this
  · intro t ps hps
    rw [get_possible_sandwich_duplicate_contracts] at hps
    obtain ⟨kv, hkv, heq⟩ := List.mem_map.mp hps
    have := hfoldC t.tx_roots
      { duplicate_mev_contracts := []
        possible_victims := []
        possible_sandwiches := [] }
      (fun kv hkv => absurd hkv (List.not_mem_nil kv)) kv hkv
    exact heq ▸ this
  · intro quote md idx eoa con frs br frg brg sa vt va vg bp hlen h
    rw [calculate_sandwich] at h
    exact calcFuel_lengths (frs.length + 1) quote md idx eoa con frs br frg
      brg sa vt va vg bp hlen h

/-- Concrete emitting `calculate_sandwich` call with one victim group. -/
def calcTest2 : Option (BundleHeader × Sandwich) :=
  calculate_sandwich 40 M0 0 1 21 [7] 8 [] gD
    [[Actions.swap ⟨31, 41, 42, 100, 200⟩],
     [Actions.swap ⟨31, 42, 41, 200, 100⟩]]
    [[9]] [[[Actions.swap ⟨31, 41, 42, 10, 20⟩]]] [[gD]]

/-- Witness for C8 on the scan candidates of `T1` and on the concrete
emitting call `calcTest2`. -/
theorem victims_frontruns_length_eq_witness :
    cand1.victims.length = cand1.possible_frontruns.length ∧
    (calcTest2.getD dummyBundle).2.victim_swaps_tx_hashes.length =
      (calcTest2.getD dummyBundle).2.frontrun_tx_hash.length := by
  constructor
  · exact victims_frontruns_length_eq.1 T1 cand1 (by decide)
  · have hsome : calcTest2.isSome = true := by decide
    exact victims_frontruns_length_eq.2.2 40 M0 0 1 21 [7] 8 [] gD
      [[Actions.swap ⟨31, 41, 42, 100, 200⟩],
       [Actions.swap ⟨31, 42, 41, 200, 100⟩]]
      [[9]] [[[Actions.swap ⟨31, 41, 42, 10, 20⟩]]] [[gD]]
      (calcTest2.getD dummyBundle) (by decide)
      (option_eq_some_getD hsome dummyBundle)

end Brontes
